import Mathlib

set_option maxRecDepth 10000

/-!
# Verification of the DB_SIM storage engine

A shallow embedding of the DB_SIM repository's storage engine: the
schema/constraint model, `Table` record operations (`insertRecord`,
`updateRecord`, `deleteRecord`), the catalog-level operations
(`dropTable`, `update`) and the persistence layer (`flushToFile` /
`loadFromFile` serialization plus the XOR stream cipher), together with
proofs of the specification's testable properties.

Strings are Lean `String`s; the byte-level cipher works on `List Nat`
(one `Nat` per byte/code point, faithful for the ASCII data the engine
processes).  C++ functions that signal failure through `bool` returns
are modelled as functions returning `Bool ×` the new state; functions
that throw on absent keys (`Record::getValue`) return `Option`.
-/

namespace DBSim

/-! ## Utility.cpp: trim / split / removeApostrophe -/

/-- The whitespace set used by `Utility::trim` (`" \t\n\r"`). -/
def isWS (c : Char) : Bool :=
  c == ' ' || c == '\t' || c == '\n' || c == '\r'

/-- `Utility::trim`: drop leading and trailing `" \t\n\r"` characters. -/
def trimL (l : List Char) : List Char :=
  ((l.dropWhile isWS).reverse.dropWhile isWS).reverse

/-- Tokenizer core shared by `Utility::split` and line reading
(`std::getline` with a delimiter): emit a token at each delimiter; at end
of input the pending token is emitted only if non-empty (a final
`getline` call at EOF with nothing read fails). -/
def splitGo (d : Char) : List Char → List Char → List (List Char)
  | [], acc => if acc.isEmpty then [] else [acc.reverse]
  | c :: cs, acc => if c == d then acc.reverse :: splitGo d cs [] else splitGo d cs (c :: acc)

/-- `std::getline`-style splitting on a delimiter character. -/
def splitRaw (d : Char) (l : List Char) : List (List Char) :=
  splitGo d l []

/-- `Utility::split`: split on a delimiter and trim each token. -/
def splitTrim (d : Char) (l : List Char) : List (List Char) :=
  (splitRaw d l).map trimL

/-- The single-quote character (code point 39). -/
def apostropheChar : Char :=
  Char.ofNat 39

/-- `Utility::removeApostrophe`: strip one pair of surrounding single
quotes if the string both starts and ends with one. -/
def removeApostrophe (l : List Char) : List Char :=
  if l ≠ [] ∧ l.head? = some apostropheChar ∧ l.getLast? = some apostropheChar then
    (l.drop 1).dropLast
  else l

/-! ## Record.cpp -/

/-- `Record`: one row, a column-name-to-string-value mapping
(`std::unordered_map` with unique keys, modelled as an association
list). -/
structure Record where
  data : List (String × String)
deriving DecidableEq, Repr

/-- Update-or-insert into an association list (`data[columnName] = value`). -/
def setAssoc : List (String × String) → String → String → List (String × String)
  | [], c, v => [(c, v)]
  | (k, w) :: rest, c, v =>
    if k = c then (k, v) :: rest else (k, w) :: setAssoc rest c v

/-- `Record::setValue`. -/
def Record.setValue (r : Record) (c v : String) : Record :=
  ⟨setAssoc r.data c v⟩

/-- `Record::getValue`; `none` models the thrown `runtime_error` for an
absent column. -/
def Record.getValue (r : Record) (c : String) : Option String :=
  r.data.lookup c

/-- `Record::hasColumn`. -/
def Record.hasColumn (r : Record) (c : String) : Bool :=
  (r.getValue c).isSome

/-! ## Schema / Constraint -/

/-- Declared column type (advisory metadata; never enforced). -/
inductive DataType
  | INTEGER
  | FLOAT
  | STRING
deriving DecidableEq, Repr

/-- A schema column: name plus declared type. -/
structure Column where
  name : String
  dtype : DataType
deriving DecidableEq, Repr

/-- The three `Constraint` subclasses, as a sum type. -/
inductive Constraint
  | pk (cols : List String)
  | uq (cols : List String)
  | fk (cols : List String) (refTable : String) (refCols : List String)
deriving DecidableEq, Repr

/-- `Schema`: ordered columns plus ordered constraints. -/
structure Schema where
  columns : List Column
  constraints : List Constraint
deriving DecidableEq, Repr

/-- `Table`: name, schema, and the ordered record sequence. -/
structure Table where
  name : String
  schema : Schema
  records : List Record
deriving DecidableEq, Repr

/-! ## Table::insertRecord -/

/-- Gather the new record's values for a PrimaryKey constraint's columns
(`Table::insertRecord`, PK branch): fail if a column is missing or its
value is the empty string. -/
def pkGather : List String → Record → Option (List String)
  | [], _ => some []
  | c :: cs, r =>
    match r.getValue c with
    | none => none
    | some v => if v = "" then none else (pkGather cs r).map (v :: ·)

/-- Gather a record's values for a Unique constraint's columns (also the
gather used when scanning existing records for both PK and UQ): fail
only if a column is missing. -/
def uqGather : List String → Record → Option (List String)
  | [], _ => some []
  | c :: cs, r =>
    match r.getValue c with
    | none => none
    | some v => (uqGather cs r).map (v :: ·)

/-- The duplicate scan of `Table::insertRecord`: does some existing
record that has all the key columns carry exactly `newVals` on them?
Records missing a key column are skipped. -/
def existingMatches (keyCols : List String) (newVals : List String)
    (recs : List Record) : Bool :=
  recs.any fun er =>
    match uqGather keyCols er with
    | none => false
    | some evs => evs == newVals

/-- One constraint's admission check in `Table::insertRecord`.
ForeignKey constraints are not enforced on insert. -/
def checkConstraint (recs : List Record) (r : Record) : Constraint → Bool
  | .pk cols =>
    match pkGather cols r with
    | none => false
    | some nv => !existingMatches cols nv recs
  | .uq cols =>
    match uqGather cols r with
    | none => false
    | some nv => !existingMatches cols nv recs
  | .fk _ _ _ => true

/-- `Table::insertRecord`: if every constraint check passes the record
is appended; otherwise the table is returned unchanged with `false`. -/
def Table.insertRecord (t : Table) (r : Record) : Bool × Table :=
  if t.schema.constraints.all (checkConstraint t.records r) then
    (true, { t with records := t.records ++ [r] })
  else
    (false, t)

/-- A sequence of `insertRecord` calls (keeping whatever each call
leaves behind). -/
def insertAll (t : Table) (rs : List Record) : Table :=
  rs.foldl (fun acc r => (acc.insertRecord r).2) t

/-! ## Condition parsing shared by update/delete -/

/-- `cond.find('=')` followed by the two `substr` calls: split a
condition at the first `=`, or `none` if there is none. -/
def splitAtEq : List Char → Option (List Char × List Char)
  | [] => none
  | c :: cs =>
    if c == '=' then some ([], cs)
    else (splitAtEq cs).map fun p => (c :: p.1, p.2)

/-- Apply every key-value pair of a patch record via `setValue`
(`for pair in newRecord.getData(): record.setValue(...)`). -/
def applyPatch (p : Record) (r : Record) : Record :=
  p.data.foldl (fun acc kv => acc.setValue kv.1 kv.2) r

/-! ## Table::updateRecord -/

/-- `Table::updateRecord`: empty or `"all"` condition patches every
record and returns `true`; a condition without `=` is an error
(`false`, unchanged); otherwise patch exactly the records whose value
at the condition column equals the (trimmed, *not* quote-stripped)
condition value, returning whether at least one matched. -/
def Table.updateRecord (t : Table) (newRec : Record) (condition : String) :
    Bool × Table :=
  let cond := trimL condition.data
  if cond = [] ∨ cond = "all".data then
    (true, { t with records := t.records.map (applyPatch newRec) })
  else
    match splitAtEq cond with
    | none => (false, t)
    | some (bef, aft) =>
      let condCol := (trimL bef).asString
      let condVal := (trimL aft).asString
      let hit := fun (r : Record) => r.getValue condCol == some condVal
      (t.records.any hit,
       { t with records := t.records.map fun r => if hit r then applyPatch newRec r else r })

/-! ## Table::deleteRecord -/

/-- `Table::deleteRecord`: `"all"` clears the records; a condition
without `=` is an error (`false`, unchanged); otherwise remove the
records whose value at the condition column equals the trimmed,
quote-stripped condition value, returning whether any were removed. -/
def Table.deleteRecord (t : Table) (condition : String) : Bool × Table :=
  let cond := trimL condition.data
  if cond = "all".data then
    (true, { t with records := [] })
  else
    match splitAtEq cond with
    | none => (false, t)
    | some (bef, aft) =>
      let condCol := (trimL bef).asString
      let condVal := (removeApostrophe (trimL aft)).asString
      let keep := fun (r : Record) => !(r.getValue condCol == some condVal)
      let newRecords := t.records.filter keep
      (decide (newRecords.length < t.records.length),
       { t with records := newRecords })

/-! ## Database (catalog) -/

/-- The catalog: a map from table name to table, modelled as an
association list with unique keys (`std::unordered_map`). -/
abbrev DB := List (String × Table)

/-- `Database::getTable`. -/
def dbGetTable (db : DB) (nm : String) : Option Table :=
  db.lookup nm

/-- `Database::addTable` (`tables[tableName] = table`): replace the
entry if the name is present, else add it. -/
def dbAddTable (db : DB) (nm : String) (t : Table) : DB :=
  if (db.lookup nm).isSome then
    db.map fun p => if p.1 == nm then (nm, t) else p
  else
    db ++ [(nm, t)]

/-- Strip from a table's schema every ForeignKey constraint whose
referenced table is `nm` (the loop body of `Database::dropTable`). -/
def stripFKRefs (nm : String) (t : Table) : Table :=
  { t with
    schema := { t.schema with
      constraints := t.schema.constraints.filter fun c =>
        match c with
        | .fk _ rt _ => !(rt == nm)
        | _ => true } }

/-- `Database::dropTable`: fail if absent; else strip dangling
ForeignKey constraints from every table, then erase the entry. -/
def dbDropTable (db : DB) (nm : String) : Bool × DB :=
  match db.lookup nm with
  | none => (false, db)
  | some _ =>
    (true, (db.map fun p => (p.1, stripFKRefs nm p.2)).filter fun p => !(p.1 == nm))

/-- `Database::update`: look up the table, build the patch record from
the assignment list, delegate to `Table::updateRecord`, and report its
result as the success flag. -/
def dbUpdate (db : DB) (nm : String) (assignments : List (String × String))
    (condition : String) : Bool × DB :=
  match db.lookup nm with
  | none => (false, db)
  | some t =>
    let patch : Record := assignments.foldl (fun r a => r.setValue a.1 a.2) ⟨[]⟩
    let res := t.updateRecord patch condition
    (res.1, db.map fun p => if p.1 == nm then (p.1, res.2) else p)

/-! ## Serialization (Database::flushToFile) -/

/-- Join pieces with a separator character, exactly as the serializer's
`if (i != size-1) oss << sep` loops do. -/
def joinSep (d : Char) : List (List Char) → List Char
  | [] => []
  | [x] => x
  | x :: y :: xs => x ++ d :: joinSep d (y :: xs)

/-- The character for a decimal digit value. -/
def digitChar (n : Nat) : Char :=
  Char.ofNat (48 + n)

/-- Decimal-printing loop; the first argument is fuel making the
recursion structural (any fuel exceeding `n` is enough, and `natRepr`
always supplies enough). -/
def natReprGo : Nat → Nat → List Char
  | 0, _ => []
  | fuel + 1, n =>
    if n < 10 then [digitChar n]
    else natReprGo fuel (n / 10) ++ [digitChar (n % 10)]

/-- Decimal printing of a natural number (`oss << records.size()`). -/
def natRepr (n : Nat) : List Char :=
  natReprGo (n + 1) n

/-- Serialize one constraint (`PK(...)`, `UQ(...)`,
`FK(...)->table(...)`). -/
def serializeConstraint : Constraint → List Char
  | .pk cols => "PK(".data ++ joinSep ',' (cols.map String.data) ++ ")".data
  | .uq cols => "UQ(".data ++ joinSep ',' (cols.map String.data) ++ ")".data
  | .fk cols rt rcols =>
    "FK(".data ++ joinSep ',' (cols.map String.data) ++ ")->".data ++ rt.data
      ++ "(".data ++ joinSep ',' (rcols.map String.data) ++ ")".data

/-- Serialize one record line: the record's values in schema column
order, `|`-separated, empty string for a missing column. -/
def serializeRecordLine (cols : List Column) (r : Record) : List Char :=
  joinSep '|' (cols.map fun c => ((r.getValue c.name).getD "").data)

/-- The lines of one table's frame. -/
def serializeTableLines (nm : String) (t : Table) : List (List Char) :=
  ["TABLE:".data ++ nm.data,
   "COLUMNS:".data ++ joinSep ',' (t.schema.columns.map (·.name.data)),
   "CONSTRAINTS:".data ++ joinSep ';' (t.schema.constraints.map serializeConstraint),
   "RECORDS:".data ++ natRepr t.records.length]
  ++ t.records.map (serializeRecordLine t.schema.columns)
  ++ ["END_TABLE".data]

/-- The serialized plaintext of the whole catalog: every frame's lines
concatenated, each line followed by a newline. -/
def serializeDB (db : DB) : List Char :=
  (db.flatMap fun p => serializeTableLines p.1 p.2).flatMap (· ++ ['\n'])

/-! ## Cipher (Database::encryptData / decryptData) -/

/-- The XOR keystream loop: byte `i` of the output is byte `i` of the
input XORed with key byte `i mod key.length`. -/
def xorKeyStream (key : List Nat) : Nat → List Nat → List Nat
  | _, [] => []
  | i, b :: bs => (b ^^^ key.getD (i % key.length) 0) :: xorKeyStream key (i + 1) bs

/-- `Database::encryptData` over byte sequences. -/
def encryptData (data key : List Nat) : List Nat :=
  xorKeyStream key 0 data

/-- `Database::decryptData` over byte sequences. -/
def decryptData (data key : List Nat) : List Nat :=
  xorKeyStream key 0 data

/-- Bytes of a string (code points; identical to the UTF-8 bytes for
the ASCII data the engine handles). -/
def strBytes (s : String) : List Nat :=
  s.data.map Char.toNat

/-! ## Parsing (Database::loadFromFile) -/

/-- Result of a load: `success` with the rebuilt catalog, `failure`
(the function returns `false` on a malformed frame), or `crash`
(an uncaught `std::stoi` exception on a non-numeric record count). -/
inductive LoadOutcome
  | success (tables : DB)
  | failure
  | crash
deriving DecidableEq, Repr

/-- `rfind(pat, 0) == 0`: is `pat` a leading substring? -/
def startsWithL : List Char → List Char → Bool
  | [], _ => true
  | _ :: _, [] => false
  | p :: ps, c :: cs => p == c && startsWithL ps cs

/-- `std::string::find` for a multi-character pattern: index of the
first occurrence, if any. -/
def findSubIdx (pat : List Char) : List Char → Option Nat
  | [] => if pat.isEmpty then some 0 else none
  | c :: cs =>
    if startsWithL pat (c :: cs) then some 0
    else (findSubIdx pat cs).map (· + 1)

/-- The whitespace set of C `isspace` (used by `std::stoi`). -/
def isSpaceC (c : Char) : Bool :=
  c == ' ' || c == '\t' || c == '\n' || c == Char.ofNat 11 || c == Char.ofNat 12 || c == '\r'

/-- Decimal digit test. -/
def isDigitC (c : Char) : Bool :=
  48 ≤ c.toNat && c.toNat ≤ 57

/-- Value of a maximal leading digit run; `none` if there are no
digits. -/
def digitsVal (l : List Char) : Option Nat :=
  let ds := l.takeWhile isDigitC
  if ds.isEmpty then none
  else some (ds.foldl (fun a c => a * 10 + (c.toNat - 48)) 0)

/-- `std::stoi`: skip whitespace, optional sign, longest digit run;
`none` models the thrown exception when no digits are found. -/
def cppStoi (l : List Char) : Option Int :=
  match l.dropWhile isSpaceC with
  | [] => none
  | c :: rest =>
    if c == '-' then (digitsVal rest).map fun n => -(n : Int)
    else if c == '+' then (digitsVal rest).map fun n => (n : Int)
    else (digitsVal (c :: rest)).map fun n => (n : Int)

/-- Parse one constraint token from the `CONSTRAINTS:` line.  `none`
means the token is skipped (malformed `FK` or unknown format — the
loader warns and continues). -/
def parseConstraintToken (t : List Char) : Option Constraint :=
  if startsWithL "PK(".data t then
    some (.pk ((splitTrim ',' ((t.drop 3).dropLast)).map List.asString))
  else if startsWithL "UQ(".data t then
    some (.uq ((splitTrim ',' ((t.drop 3).dropLast)).map List.asString))
  else if startsWithL "FK(".data t then
    match findSubIdx ")->".data t with
    | none => none
    | some posArrow =>
      let localCols := (splitTrim ',' ((t.drop 3).take (posArrow - 3))).map List.asString
      let rest := t.drop (posArrow + 3)
      match findSubIdx "(".data rest with
      | none => none
      | some posParen =>
        let refTable := (trimL (rest.take posParen)).asString
        let refCols := (splitTrim ',' ((rest.drop (posParen + 1)).dropLast)).map List.asString
        some (.fk localCols refTable refCols)
  else none

/-- Pair each column name with the split value at its index, empty
string when the split produced fewer values
(`value = (j < values.size()) ? values[j] : ""`). -/
def zipPad : List String → List (List Char) → List (String × String)
  | [], _ => []
  | c :: cs, [] => (c, "") :: zipPad cs []
  | c :: cs, v :: vs => (c, v.asString) :: zipPad cs vs

/-- Build the record for one record line. -/
def buildRecordRow (cols : List String) (vals : List (List Char)) : Record :=
  (zipPad cols vals).foldl (fun r cv => r.setValue cv.1 cv.2) ⟨[]⟩

/-- The record-reading loop of `loadFromFile`: read `n` lines (stopping
early at end of input), build each record and insert it into the table,
ignoring the insert's result. -/
def loadRecords (tbl : Table) (cols : List String) (n : Nat)
    (lines : List (List Char)) : Option (Table × List (List Char)) :=
  if lines.length < n then none
  else
    some ((lines.take n).foldl
      (fun tb line =>
        (tb.insertRecord (buildRecordRow cols (splitTrim '|' (trimL line)))).2) tbl,
      lines.drop n)

/-- The line-consuming loop of `loadFromFile`.  The `fuel` argument
makes the recursion structural; every recursive call consumes at least
one line, so any fuel exceeding the number of lines is enough (see
`parseFramesFuel_irrel`).  A `getline` failure mid-frame breaks out of
the loop, which then returns success with the tables added so far. -/
def parseFramesFuel : Nat → List (List Char) → DB → LoadOutcome
  | 0, _, acc => .success acc
  | _ + 1, [], acc => .success acc
  | fuel + 1, line :: rest, acc =>
    let l := trimL line
    if l = [] then parseFramesFuel fuel rest acc
    else if startsWithL "TABLE:".data l then
      let tableName := (trimL (l.drop 6)).asString
      match rest with
      | [] => .success acc
      | l1 :: rest1 =>
        let t1 := trimL l1
        if !startsWithL "COLUMNS:".data t1 then .failure
        else
          let columnNames := (splitTrim ',' (trimL (t1.drop 8))).map List.asString
          match rest1 with
          | [] => .success acc
          | l2 :: rest2 =>
            let t2 := trimL l2
            if !startsWithL "CONSTRAINTS:".data t2 then .failure
            else
              let cstr := trimL (t2.drop 12)
              let cons := if cstr = [] then []
                else (splitTrim ';' cstr).filterMap parseConstraintToken
              match rest2 with
              | [] => .success acc
              | l3 :: rest3 =>
                let t3 := trimL l3
                if !startsWithL "RECORDS:".data t3 then .failure
                else
                  match cppStoi (trimL (t3.drop 8)) with
                  | none => .crash
                  | some cnt =>
                    let schema : Schema :=
                      ⟨columnNames.map fun c => ⟨c, DataType.STRING⟩, cons⟩
                    let tbl0 : Table := ⟨tableName, schema, []⟩
                    match loadRecords tbl0 columnNames cnt.toNat rest3 with
                    | none => .success acc
                    | some (tbl, rest4) =>
                      match rest4 with
                      | [] => .success acc
                      | l4 :: rest5 =>
                        if trimL l4 ≠ "END_TABLE".data then .failure
                        else parseFramesFuel fuel rest5 (dbAddTable acc tableName tbl)
    else parseFramesFuel fuel rest acc

/-- `loadFromFile`'s parse of the decrypted text, starting (as the code
does) from an empty catalog. -/
def parseFrames (lines : List (List Char)) (acc : DB) : LoadOutcome :=
  parseFramesFuel (lines.length + 1) lines acc

/-- `Database::flushToFile`, up to the file write: serialize and
encrypt. -/
def flushToBytes (db : DB) (key : String) : List Nat :=
  encryptData (strBytes ((serializeDB db).asString)) (strBytes key)

/-- `Database::loadFromFile`, from the file's bytes: decrypt, clear the
catalog, split into lines and replay the frames. -/
def loadFromBytes (bytes : List Nat) (key : String) : LoadOutcome :=
  let text := (decryptData bytes (strBytes key)).map Char.ofNat
  parseFrames (splitRaw '\n' text) []

/-! ## Predicates and auxiliary definitions used by the theorems -/

/-- No two records in the list agree element-wise on all columns of
`K` (two records conflict only when both carry all of `K` and their
gathered value tuples are equal). -/
def distinctOnK (K : List String) (recs : List Record) : Prop :=
  recs.Pairwise fun a b => ∀ vs, uqGather K a = some vs → uqGather K b ≠ some vs

/-- Does a constraint reference table `A` as a foreign key? -/
def refsTable (A : String) : Constraint → Bool
  | .fk _ rt _ => rt == A
  | _ => false

/-- Characters allowed in table, column and constraint names:
alphanumeric or underscore (disjoint from every delimiter the frame
format uses). -/
def goodChar (c : Char) : Bool :=
  c.isAlphanum || c == '_'

/-- A well-formed identifier: non-empty, all characters good. -/
def goodName (s : String) : Bool :=
  !s.data.isEmpty && s.data.all goodChar

/-- A well-formed stored value: free of the line separator and the
field separator, and unchanged by trimming (no leading or trailing
whitespace). -/
def goodValue (s : String) : Bool :=
  s.data.all (fun c => !(c == '\n') && !(c == '|')) && (trimL s.data == s.data)

/-- The characters that can appear in a serialized constraint token:
identifier characters plus the token's own punctuation. -/
def consChar (c : Char) : Bool :=
  goodChar c || c == ',' || c == '(' || c == ')' || c == '-' || c == '>'

/-- A record is well-formed for a column-name list when its keys are
exactly those columns (every stored pair's key is a schema column and
every schema column is present) and all its values are well-formed. -/
def WFRecord (cols : List String) (r : Record) : Prop :=
  (∀ kv ∈ r.data, kv.1 ∈ cols ∧ goodValue kv.2 = true) ∧
  (∀ c ∈ cols, (r.getValue c).isSome = true)

/-- Names appearing in a constraint are well-formed identifiers. -/
def WFConstraint : Constraint → Prop
  | .pk cols => ∀ c ∈ cols, goodName c = true
  | .uq cols => ∀ c ∈ cols, goodName c = true
  | .fk cols rt rcols =>
    (∀ c ∈ cols, goodName c = true) ∧ goodName rt = true ∧
    (∀ c ∈ rcols, goodName c = true)

/-- The records currently satisfy a PrimaryKey/Unique constraint: every
record carries all the constraint's columns (with non-empty values
where the constraint is a primary key), and no two records share the
gathered value tuple. -/
def constraintHolds (recs : List Record) : Constraint → Prop
  | .pk K => (∀ r ∈ recs, (pkGather K r).isSome = true) ∧
    recs.Pairwise fun a b => uqGather K a ≠ uqGather K b
  | .uq K => (∀ r ∈ recs, (uqGather K r).isSome = true) ∧
    recs.Pairwise fun a b => uqGather K a ≠ uqGather K b
  | .fk _ _ _ => True

/-- A well-formed table: distinct well-formed column names, well-formed
constraint and record contents, records satisfying the PK/Unique
constraints, and a record count below `INT_MAX` (so the loader's
`std::stoi` cannot overflow). -/
def WFTable (t : Table) : Prop :=
  (t.schema.columns.map Column.name).Nodup ∧
  (∀ c ∈ t.schema.columns, goodName c.name = true) ∧
  (∀ con ∈ t.schema.constraints, WFConstraint con) ∧
  (∀ r ∈ t.records, WFRecord (t.schema.columns.map Column.name) r) ∧
  (∀ con ∈ t.schema.constraints, constraintHolds t.records con) ∧
  t.records.length < 2 ^ 31

/-- A well-formed catalog: distinct well-formed table names, each table
well-formed. -/
def WFDB (db : DB) : Prop :=
  (db.map Prod.fst).Nodup ∧
  ∀ p ∈ db, goodName p.1 = true ∧ WFTable p.2

/-- Two records hold the same contents: every column lookup agrees. -/
def recordEquiv (r r' : Record) : Prop :=
  ∀ c, r.getValue c = r'.getValue c

/-- Two tables agree on column-name lists (order preserved), constraint
shapes, and record contents. -/
def tableEquiv (t t' : Table) : Prop :=
  t.schema.columns.map Column.name = t'.schema.columns.map Column.name ∧
  t.schema.constraints = t'.schema.constraints ∧
  List.Forall₂ recordEquiv t.records t'.records

/-- Two catalogs agree on their table-name sequences and tablewise
contents. -/
def dbEquiv (db db' : DB) : Prop :=
  db.map Prod.fst = db'.map Prod.fst ∧
  List.Forall₂ (fun p q => tableEquiv p.2 q.2) db db'

/-- The record the loader rebuilds for `r`: every schema column bound,
in schema order, to `r`'s value there (empty string if absent). -/
def reloadRecord (cols : List String) (r : Record) : Record :=
  ⟨cols.map fun c => (c, (r.getValue c).getD "")⟩

/-- The table the loader rebuilds: same name and column names (all
typed `STRING`), same constraints, records rebuilt columnwise. -/
def reloadTable (nm : String) (t : Table) : Table :=
  ⟨nm,
   ⟨t.schema.columns.map fun c => ⟨c.name, DataType.STRING⟩,
    t.schema.constraints⟩,
   t.records.map (reloadRecord (t.schema.columns.map Column.name))⟩

/-- The catalog the loader rebuilds from a flushed well-formed
catalog. -/
def reloadDB (db : DB) : DB :=
  db.map fun p => (p.1, reloadTable p.1 p.2)

/-! ## Example data used by witnesses and counterexamples -/

/-- Schema of the spec's `users` scenario: columns `id`, `name`, `age`
with a primary key on `id`. -/
def usersSchema : Schema :=
  ⟨[⟨"id", .STRING⟩, ⟨"name", .STRING⟩, ⟨"age", .STRING⟩], [.pk ["id"]]⟩

/-- The `users` table holding Alice. -/
def usersTable : Table :=
  ⟨"users", usersSchema, [⟨[("id", "1"), ("name", "Alice"), ("age", "30")]⟩]⟩

/-- The spec's wrong-key scenario: a catalog with one table holding two
records. -/
def twoRecDB : DB :=
  [("t", ⟨"t", ⟨[⟨"id", .STRING⟩], []⟩, [⟨[("id", "1")]⟩, ⟨[("id", "2")]⟩]⟩)]

/-- A catalog whose single record holds a value containing the
serializer's field separator `|`. -/
def pipeValDB : DB :=
  [("t", ⟨"t", ⟨[⟨"a", .STRING⟩], []⟩, [⟨[("a", "x|y")]⟩]⟩)]

end DBSim

namespace DBSim

/-! ## Cipher lemmas and claim C3 -/

theorem xorKeyStream_involutive (key : List Nat) (b : List Nat) (i : Nat) :
    xorKeyStream key i (xorKeyStream key i b) = b := by
  induction b generalizing i with
  | nil => rfl
  | cons x xs ih =>
    simp [xorKeyStream, ih, Nat.xor_assoc]

theorem xorKeyStream_getD (key : List Nat) (b : List Nat) (j i : Nat)
    (h : i < b.length) :
    (xorKeyStream key j b).getD i 0 = b.getD i 0 ^^^ key.getD ((j + i) % key.length) 0 := by
  induction b generalizing j i with
  | nil => simp at h
  | cons x xs ih =>
    cases i with
    | zero => simp [xorKeyStream]
    | succ i =>
      have := ih (j + 1) i (by simpa using h)
      simpa [xorKeyStream, Nat.add_assoc, Nat.add_comm 1 i] using this

/-- Claim C3: for every byte sequence `b` and non-empty key `k`,
`decryptData (encryptData b k) k = b`; the transform XORs byte `i` with
key byte `i mod k.length`; and `encryptData` and `decryptData` compute
the same function (the cipher is self-inverse). -/
theorem c3_cipher_involution (b k : List Nat) (_hk : k ≠ []) :
    decryptData (encryptData b k) k = b ∧
    (∀ i, i < b.length →
      (encryptData b k).getD i 0 = b.getD i 0 ^^^ k.getD (i % k.length) 0) ∧
    (∀ d, encryptData d k = decryptData d k) := by
  refine ⟨xorKeyStream_involutive k b 0, fun i hi => ?_, fun _ => rfl⟩
  simpa using xorKeyStream_getD k b 0 i hi

/-- Witness for C3 at a concrete byte sequence and key. -/
theorem c3_cipher_involution_witness :
    ([104, 105] : List Nat) ≠ [] ∧
    decryptData (encryptData [1, 2, 3] [104, 105]) [104, 105] = [1, 2, 3] := by
  refine ⟨by decide, ?_⟩
  exact (c3_cipher_involution [1, 2, 3] [104, 105] (by decide)).1

/-! ## Claim C2: insert atomicity -/

/-- Claim C2: an insert either fails and leaves the record sequence
exactly as it was, or succeeds and leaves the old sequence with the new
record appended at the end. -/
theorem c2_insert_atomic (t : Table) (r : Record) :
    ((t.insertRecord r).1 = false ∧ (t.insertRecord r).2.records = t.records) ∨
    ((t.insertRecord r).1 = true ∧ (t.insertRecord r).2.records = t.records ++ [r]) := by
  by_cases h : t.schema.constraints.all (checkConstraint t.records r)
  · right; simp [Table.insertRecord, h]
  · left; simp [Table.insertRecord, h]

/-! ## Claim C1: primary-key uniqueness invariant -/

theorem pkGather_uqGather (K : List String) (r : Record) (v : List String)
    (h : pkGather K r = some v) : uqGather K r = some v := by
  induction K generalizing v with
  | nil => simpa [pkGather, uqGather] using h
  | cons c cs ih =>
    simp only [pkGather, uqGather] at h ⊢
    cases hv : r.getValue c with
    | none => rw [hv] at h; exact absurd h (by simp)
    | some w =>
      rw [hv] at h
      by_cases hw : w = ""
      · simp [hw] at h
      · simp only [hw, if_false, Option.map_eq_some'] at h
        obtain ⟨a, ha, rfl⟩ := h
        simp [ih a ha]

theorem insertRecord_schema (t : Table) (r : Record) :
    ((t.insertRecord r).2).schema = t.schema := by
  unfold Table.insertRecord
  split <;> rfl

theorem insertRecord_distinctOnK (K : List String) (t : Table) (r : Record)
    (hK : Constraint.pk K ∈ t.schema.constraints)
    (hd : distinctOnK K t.records) :
    distinctOnK K ((t.insertRecord r).2).records := by
  unfold Table.insertRecord
  by_cases hall : t.schema.constraints.all (checkConstraint t.records r)
  case neg => simpa [hall] using hd
  case pos =>
    simp only [hall, if_true]
    have hc : checkConstraint t.records r (Constraint.pk K) = true :=
      List.all_eq_true.mp hall _ hK
    simp only [checkConstraint] at hc
    cases hg : pkGather K r with
    | none => rw [hg] at hc; exact absurd hc (by simp)
    | some nv =>
      rw [hg] at hc
      simp only [Bool.not_eq_true'] at hc
      unfold distinctOnK at hd ⊢
      rw [List.pairwise_append]
      refine ⟨hd, by simp, ?_⟩
      intro a ha b hb vs hva hvb
      simp only [List.mem_singleton] at hb
      rw [hb] at hvb
      have hur : uqGather K r = some nv := pkGather_uqGather _ _ _ hg
      have hvn : vs = nv := Option.some.inj (hvb.symm.trans hur)
      subst hvn
      have hm : existingMatches K vs t.records = true := by
        unfold existingMatches
        rw [List.any_eq_true]
        exact ⟨a, ha, by simp [hva]⟩
      rw [hm] at hc
      cases hc

/-- Claim C1: starting from an empty record sequence, any sequence of
`insertRecord` calls against a schema containing a PrimaryKey
constraint on `K` leaves no two records agreeing on all columns of
`K`. -/
theorem c1_pk_uniqueness (nm : String) (schema : Schema) (K : List String)
    (hK : Constraint.pk K ∈ schema.constraints) (rs : List Record) :
    distinctOnK K (insertAll ⟨nm, schema, []⟩ rs).records := by
  have main : ∀ (rs : List Record) (t : Table), t.schema = schema →
      distinctOnK K t.records → distinctOnK K (insertAll t rs).records := by
    intro rs
    induction rs with
    | nil => intro t _ hd; simpa [insertAll] using hd
    | cons r rs ih =>
      intro t hs hd
      simp only [insertAll, List.foldl_cons]
      exact ih ((t.insertRecord r).2) (by rw [insertRecord_schema, hs])
        (insertRecord_distinctOnK K t r (by rw [hs]; exact hK) hd)
  exact main rs _ rfl (by simp [distinctOnK])

/-- Witness for C1: the spec's `users` scenario, inserting Alice, a
duplicate `id`, and Bob. -/
theorem c1_pk_uniqueness_witness :
    Constraint.pk ["id"] ∈ usersSchema.constraints ∧
    distinctOnK ["id"] (insertAll ⟨"users", usersSchema, []⟩
      [⟨[("id", "1"), ("name", "Alice")]⟩,
       ⟨[("id", "1"), ("name", "Bob")]⟩,
       ⟨[("id", "2"), ("name", "Bob")]⟩]).records := by
  refine ⟨by decide, ?_⟩
  exact c1_pk_uniqueness "users" usersSchema ["id"] (by decide) _

/-! ## Association-list lookup lemmas for the catalog -/

theorem lookup_map_stripFK (db : DB) (nm B : String) :
    (db.map fun p => (p.1, stripFKRefs nm p.2)).lookup B
      = (db.lookup B).map (stripFKRefs nm) := by
  induction db with
  | nil => rfl
  | cons p rest ih =>
    obtain ⟨k, t⟩ := p
    by_cases h : B == k <;> simp [List.lookup, h, ih]

theorem lookup_filter_ne (db : DB) (A B : String) (h : B ≠ A) :
    (db.filter fun p => !(p.1 == A)).lookup B = db.lookup B := by
  induction db with
  | nil => rfl
  | cons p rest ih =>
    obtain ⟨k, t⟩ := p
    by_cases hkA : k = A
    · subst hkA
      have hBk : (B == k) = false := by simpa using h
      simp [List.lookup, List.filter, hBk, ih]
    · have : (k == A) = false := by simpa using hkA
      by_cases hBk : B == k <;> simp [List.lookup, List.filter, this, hBk, ih]

theorem lookup_filter_self (db : DB) (A : String) :
    (db.filter fun p => !(p.1 == A)).lookup A = none := by
  induction db with
  | nil => rfl
  | cons p rest ih =>
    obtain ⟨k, t⟩ := p
    by_cases hkA : k = A
    · subst hkA; simp [List.filter, ih]
    · have : (k == A) = false := by simpa using hkA
      have hAk : (A == k) = false := by simpa using (Ne.symm hkA)
      simp [List.lookup, List.filter, this, hAk, ih]

theorem lookup_eq_none_of_not_mem (db : DB) (nm : String)
    (h : nm ∉ db.map Prod.fst) : db.lookup nm = none := by
  induction db with
  | nil => rfl
  | cons p rest ih =>
    obtain ⟨k, t⟩ := p
    simp only [List.map_cons, List.mem_cons, not_or] at h
    have : (nm == k) = false := by simpa using h.1
    simp [List.lookup, this, ih h.2]

theorem map_ite_of_lookup_none (db : DB) (nm : String) (t : Table)
    (h : db.lookup nm = none) :
    (db.map fun p => if p.1 == nm then (nm, t) else p) = db := by
  induction db with
  | nil => rfl
  | cons p rest ih =>
    obtain ⟨k, w⟩ := p
    by_cases hk : nm = k
    · simp [List.lookup, hk] at h
    · have hk2 : (k == nm) = false := beq_eq_false_iff_ne.mpr (Ne.symm hk)
      have hk3 : (nm == k) = false := beq_eq_false_iff_ne.mpr hk
      have h2 : rest.lookup nm = none := by simpa [List.lookup, hk3] using h
      simp only [List.map_cons, hk2, if_false, Bool.false_eq_true, ih h2]

/-- Replacing the entry for a present key by the very table it already
maps to is the identity, provided the keys are distinct. -/
theorem map_ite_self (db : DB) (nm : String) (t : Table)
    (hnd : (db.map Prod.fst).Nodup) (h : db.lookup nm = some t) :
    (db.map fun p => if p.1 == nm then (p.1, t) else p) = db := by
  induction db with
  | nil => rfl
  | cons p rest ih =>
    obtain ⟨k, w⟩ := p
    simp only [List.map_cons, List.nodup_cons] at hnd
    by_cases hk : nm = k
    · subst hk
      have hb : (nm == nm) = true := by simp
      have hw : w = t := by simpa [List.lookup] using h
      subst hw
      have hrest : rest.lookup nm = none :=
        lookup_eq_none_of_not_mem rest nm hnd.1
      have heq : (fun (p : String × Table) => if p.1 == nm then (p.1, w) else p)
          = fun p => if p.1 == nm then (nm, w) else p := by
        funext p
        by_cases hp : p.1 == nm
        · have hp2 : p.1 = nm := by simpa using hp
          simp [hp, hp2]
        · simp [hp]
      simp only [List.map_cons, hb, if_true, heq]
      rw [map_ite_of_lookup_none rest nm w hrest]
    · have hk2 : (k == nm) = false := beq_eq_false_iff_ne.mpr (Ne.symm hk)
      have hk3 : (nm == k) = false := beq_eq_false_iff_ne.mpr hk
      have h2 : rest.lookup nm = some t := by simpa [List.lookup, hk3] using h
      simp only [List.map_cons, hk2, if_false, Bool.false_eq_true, ih hnd.2 h2]

/-! ## Claim C6: drop-table cascade -/

/-- Claim C6: dropping an existing table `A` succeeds, removes `A` from
the catalog, and rewrites every other table to one with the same
records and columns whose constraint list is the original one with
exactly the ForeignKey constraints referencing `A` removed — a
constraint survives iff it was present and does not reference `A`. -/
theorem c6_drop_table_cascade (db : DB) (A : String)
    (hA : (db.lookup A).isSome) :
    (dbDropTable db A).1 = true ∧
    (dbDropTable db A).2.lookup A = none ∧
    ∀ B t, B ≠ A → db.lookup B = some t →
      (dbDropTable db A).2.lookup B = some (stripFKRefs A t) ∧
      (stripFKRefs A t).records = t.records ∧
      (stripFKRefs A t).schema.columns = t.schema.columns ∧
      (stripFKRefs A t).schema.constraints
        = t.schema.constraints.filter (fun c => !refsTable A c) ∧
      (∀ c, c ∈ (stripFKRefs A t).schema.constraints ↔
        (c ∈ t.schema.constraints ∧ refsTable A c = false)) := by
  obtain ⟨tA, htA⟩ := Option.isSome_iff_exists.mp hA
  have hstep : dbDropTable db A =
      (true, (db.map fun p => (p.1, stripFKRefs A p.2)).filter fun p => !(p.1 == A)) := by
    unfold dbDropTable
    rw [htA]
  have hfilter : ∀ t : Table, (stripFKRefs A t).schema.constraints
      = t.schema.constraints.filter (fun c => !refsTable A c) := by
    intro t
    unfold stripFKRefs
    simp only
    congr 1
    funext c
    cases c <;> simp [refsTable]
  refine ⟨by rw [hstep], ?_, ?_⟩
  · rw [hstep]
    exact lookup_filter_self _ A
  · intro B t hBA hB
    refine ⟨?_, rfl, rfl, hfilter t, ?_⟩
    · rw [hstep]
      simp only
      rw [lookup_filter_ne _ A B hBA, lookup_map_stripFK, hB]
      rfl
    · intro c
      rw [hfilter t]
      simp [List.mem_filter]

/-- Witness for C6: dropping `dept` removes the `emp → dept` foreign
key but keeps the primary key, in a two-table catalog. -/
theorem c6_drop_table_cascade_witness :
    (([("dept", ⟨"dept", ⟨[⟨"id", .STRING⟩], [.pk ["id"]]⟩, []⟩),
       ("emp", ⟨"emp", ⟨[⟨"id", .STRING⟩, ⟨"d", .STRING⟩],
         [.pk ["id"], .fk ["d"] "dept" ["id"]]⟩, []⟩)] : DB).lookup "dept").isSome ∧
    (dbDropTable
      [("dept", ⟨"dept", ⟨[⟨"id", .STRING⟩], [.pk ["id"]]⟩, []⟩),
       ("emp", ⟨"emp", ⟨[⟨"id", .STRING⟩, ⟨"d", .STRING⟩],
         [.pk ["id"], .fk ["d"] "dept" ["id"]]⟩, []⟩)] "dept").2.lookup "dept" = none := by
  refine ⟨by decide, ?_⟩
  exact (c6_drop_table_cascade _ "dept" (by decide)).2.1

/-! ## Claim C7: zero-match update -/

/-- Claim C7 (amended): an update whose well-formed single-equality
condition matches no record returns `false` — the same boolean that
`Database::update` then reports as a failed update — and leaves the
record sequence (indeed the whole catalog) unchanged.  The claim's
"success outcome reporting a count of zero" does not hold: the code
returns its failure signal. -/
theorem c7_zero_match_update (db : DB) (nm : String) (t : Table)
    (assignments : List (String × String)) (condition : String)
    (bef aft : List Char)
    (hnd : (db.map Prod.fst).Nodup)
    (ht : db.lookup nm = some t)
    (hne : trimL condition.data ≠ [])
    (hall : trimL condition.data ≠ "all".data)
    (hsplit : splitAtEq (trimL condition.data) = some (bef, aft))
    (hnomatch : ∀ r ∈ t.records,
      r.getValue ((trimL bef).asString) ≠ some ((trimL aft).asString)) :
    (∀ p, t.updateRecord p condition = (false, t)) ∧
    dbUpdate db nm assignments condition = (false, db) := by
  have hupd : ∀ p, t.updateRecord p condition = (false, t) := by
    intro p
    unfold Table.updateRecord
    simp only [hsplit]
    rw [if_neg (by push_neg; exact ⟨hne, hall⟩)]
    have hhit : ∀ r ∈ t.records,
        (r.getValue ((trimL bef).asString) == some ((trimL aft).asString)) = false := by
      intro r hr
      exact beq_eq_false_iff_ne.mpr (hnomatch r hr)
    have hany : (t.records.any fun r =>
        r.getValue ((trimL bef).asString) == some ((trimL aft).asString)) = false := by
      rw [List.any_eq_false]
      intro r hr
      simp [hhit r hr]
    have hmap : ∀ recs : List Record,
        (∀ r ∈ recs,
          (r.getValue ((trimL bef).asString) == some ((trimL aft).asString)) = false) →
        (recs.map fun r =>
          if (r.getValue ((trimL bef).asString) == some ((trimL aft).asString)) = true
          then applyPatch p r else r) = recs := by
      intro recs h
      induction recs with
      | nil => rfl
      | cons a as ih =>
        simp only [List.map_cons, h a (by simp), ih fun r hr => h r (by simp [hr])]
        simp
    simp only [hany, hmap t.records hhit]
  refine ⟨hupd, ?_⟩
  unfold dbUpdate
  rw [ht]
  simp only [hupd]
  rw [map_ite_self db nm t hnd ht]

/-- Witness for C7 at the spec's `delete(users, "id = 99")`-style
scenario, applied to update. -/
theorem c7_zero_match_update_witness :
    (([("users", usersTable)] : DB).map Prod.fst).Nodup ∧
    dbUpdate [("users", usersTable)] "users" [("age", "31")] "id = 99"
      = (false, [("users", usersTable)]) := by
  refine ⟨by decide, ?_⟩
  exact (c7_zero_match_update [("users", usersTable)] "users" usersTable
    [("age", "31")] "id = 99" "id ".data " 99".data
    (by decide) (by decide) (by decide) (by decide) (by decide)
    (by decide)).2

/-- Counterexample for C7 as stated: the zero-match update call does
not report success — it returns `false`, the very signal
`Table::updateRecord` uses for a malformed condition and that
`Database::update` reports as a failed update. -/
theorem c7_zero_match_not_success :
    (usersTable.updateRecord ⟨[("age", "31")]⟩ "id = 99").1 = false ∧
    (dbUpdate [("users", usersTable)] "users" [("age", "31")] "id = 99").1 = false ∧
    (dbUpdate [("users", usersTable)] "wrong_table" [("age", "31")] "id = 1").1 = false := by
  decide

/-! ## Claim C8: delete "all" / empty / zero-match -/

/-- Claim C8 (amended): `deleteRecord "all"` empties the record sequence
(on a table with N records, exactly N are removed) and returns `true`;
the empty-string condition is *not* an "all" alias — it fails the
condition-format check and leaves the records unchanged; and a
well-formed equality condition matching no records returns `false`
(no records removed) with the record sequence unchanged. -/
theorem c8_delete_all_empty_nomatch (t : Table) (condition : String)
    (bef aft : List Char)
    (hall : trimL condition.data ≠ "all".data)
    (hsplit : splitAtEq (trimL condition.data) = some (bef, aft))
    (hnomatch : ∀ r ∈ t.records,
      r.getValue ((trimL bef).asString)
        ≠ some ((removeApostrophe (trimL aft)).asString)) :
    t.deleteRecord "all" = (true, { t with records := [] }) ∧
    t.deleteRecord "" = (false, t) ∧
    t.deleteRecord condition = (false, t) := by
  refine ⟨rfl, rfl, ?_⟩
  unfold Table.deleteRecord
  rw [if_neg hall]
  simp only [hsplit]
  have hkeep : ∀ r ∈ t.records,
      (!(r.getValue ((trimL bef).asString)
        == some ((removeApostrophe (trimL aft)).asString))) = true := by
    intro r hr
    simp [beq_eq_false_iff_ne.mpr (hnomatch r hr)]
  have hfil : t.records.filter (fun r =>
      !(r.getValue ((trimL bef).asString)
        == some ((removeApostrophe (trimL aft)).asString))) = t.records :=
    List.filter_eq_self.mpr hkeep
  simp [hfil]

/-- Witness for C8 at the spec's scenario (`delete(users, "id = 99")`
matches nothing). -/
theorem c8_delete_all_empty_nomatch_witness :
    trimL "id = 99".data ≠ "all".data ∧
    usersTable.deleteRecord "all" = (true, { usersTable with records := [] }) ∧
    usersTable.deleteRecord "id = 99" = (false, usersTable) := by
  have h := c8_delete_all_empty_nomatch usersTable "id = 99" "id ".data " 99".data
    (by decide) (by decide) (by decide)
  exact ⟨by decide, h.1, h.2.2⟩

/-- Counterexample for C8 as stated: the empty-string condition does
not clear the table — on a table with one record, delete returns
`false` (invalid condition format) and removes nothing. -/
theorem c8_empty_condition_clears_nothing :
    (usersTable.deleteRecord "").1 = false ∧
    (usersTable.deleteRecord "").2.records = usersTable.records ∧
    usersTable.records.length = 1 := by
  decide

/-! ## Claim C9: update does not strip the condition's quotes -/

/-- Claim C9 is wrong about the code, and the code contradicts its own
comment (`Database::update` says the table "will use our helper
function", the apostrophe-stripping `evaluateCondition`, but
`Table::updateRecord` compares the raw trimmed literal): an update
whose condition is `name = 'Alice'` matches nothing even though a
record with `name == "Alice"` is present (insert strips quotes from
stored values), returning `false` and leaving the table unchanged,
while the same condition given to delete does strip the quotes and
removes the record, and the unquoted condition does match for
update. -/
theorem c9_update_quotes_not_stripped :
    (usersTable.updateRecord ⟨[("age", "31")]⟩ "name = 'Alice'").1 = false ∧
    (usersTable.updateRecord ⟨[("age", "31")]⟩ "name = 'Alice'").2 = usersTable ∧
    (usersTable.deleteRecord "name = 'Alice'").2.records = [] ∧
    (usersTable.updateRecord ⟨[("age", "31")]⟩ "name = Alice").1 = true := by
  decide

/-! ## Claim C10: delete keeps exactly the non-matching records -/

/-- Claim C10: for a well-formed equality condition, the record sequence
after a delete is exactly the filtered subsequence of non-matching
records of the original sequence — the survivors are the original
record values, in their original relative order (a sublist of the
original sequence). -/
theorem c10_delete_filter (t : Table) (condition : String)
    (bef aft : List Char)
    (hall : trimL condition.data ≠ "all".data)
    (hsplit : splitAtEq (trimL condition.data) = some (bef, aft)) :
    (t.deleteRecord condition).2.records
      = t.records.filter (fun r =>
          !(r.getValue ((trimL bef).asString)
            == some ((removeApostrophe (trimL aft)).asString))) ∧
    (t.deleteRecord condition).2.records.Sublist t.records := by
  have hrec : (t.deleteRecord condition).2.records
      = t.records.filter (fun r =>
          !(r.getValue ((trimL bef).asString)
            == some ((removeApostrophe (trimL aft)).asString))) := by
    unfold Table.deleteRecord
    rw [if_neg hall]
    simp only [hsplit]
  exact ⟨hrec, by rw [hrec]; exact List.filter_sublist _⟩

/-- Witness for C10: deleting `name = 'Alice'` keeps exactly the
records whose `name` is not `Alice`. -/
theorem c10_delete_filter_witness :
    trimL "name = 'Alice'".data ≠ "all".data ∧
    (usersTable.deleteRecord "name = 'Alice'").2.records
      = usersTable.records.filter (fun r => !(r.getValue "name" == some "Alice")) := by
  have h := c10_delete_filter usersTable "name = 'Alice'" "name ".data " 'Alice'".data
    (by decide) (by decide)
  refine ⟨by decide, ?_⟩
  rw [h.1]
  rfl

/-! ## Claim C5: loading with the wrong key -/

theorem parseFramesFuel_no_table_marker (fuel : Nat) :
    ∀ (lines : List (List Char)) (acc : DB),
    (∀ line ∈ lines, startsWithL "TABLE:".data (trimL line) = false) →
    parseFramesFuel fuel lines acc = .success acc := by
  induction fuel with
  | zero => intro lines acc _; rfl
  | succ fuel ih =>
    intro lines acc h
    cases lines with
    | nil => rfl
    | cons line rest =>
      have hline := h line (by simp)
      have hrest : ∀ l ∈ rest, startsWithL "TABLE:".data (trimL l) = false :=
        fun l hl => h l (by simp [hl])
      unfold parseFramesFuel
      by_cases hemp : trimL line = []
      · rw [if_pos hemp]
        exact ih rest acc hrest
      · rw [if_neg hemp, if_neg (by simp [hline])]
        exact ih rest acc hrest

/-- Claim C5 (amended): decrypting with a wrong key does not reliably
fail.  Whenever no line of the (garbled) decrypted text starts with
`TABLE:` after trimming, the load *succeeds*, returning an empty
catalog (the previously held tables were discarded up front) — there is
no `MalformedFrame` report. -/
theorem c5_wrong_key_silent_success (bytes : List Nat) (key : String)
    (h : ∀ line ∈ splitRaw '\n'
        ((decryptData bytes (strBytes key)).map Char.ofNat),
      startsWithL "TABLE:".data (trimL line) = false) :
    loadFromBytes bytes key = .success [] := by
  unfold loadFromBytes parseFrames
  exact parseFramesFuel_no_table_marker _ _ _ h

/-- Witness for C5: the spec's own scenario — flush a table with two
records under key `"k"`, load with key `"wrong"` — satisfies the
no-`TABLE:`-marker hypothesis, so the load reports success. -/
theorem c5_wrong_key_silent_success_witness :
    (∀ line ∈ splitRaw '\n'
        ((decryptData (flushToBytes twoRecDB "k") (strBytes "wrong")).map Char.ofNat),
      startsWithL "TABLE:".data (trimL line) = false) ∧
    loadFromBytes (flushToBytes twoRecDB "k") "wrong" = .success [] := by
  refine ⟨by decide, ?_⟩
  exact c5_wrong_key_silent_success (flushToBytes twoRecDB "k") "wrong" (by decide)

/-- Counterexample for C5 as stated: in the spec's scenario the load
does not fail with `MalformedFrame`; it silently reports success over
the wrongly-decrypted bytes, yielding an empty catalog. -/
theorem c5_wrong_key_reports_success :
    loadFromBytes (flushToBytes twoRecDB "k") "wrong" ≠ .failure ∧
    loadFromBytes (flushToBytes twoRecDB "k") "wrong" = .success [] ∧
    (twoRecDB.lookup "t").isSome := by
  decide

/-! ## Trim lemmas -/

theorem length_dropWhile_le' (p : Char → Bool) (l : List Char) :
    (l.dropWhile p).length ≤ l.length := by
  induction l with
  | nil => simp
  | cons a as ih =>
    rw [List.dropWhile_cons]
    split
    · exact le_trans ih (by simp)
    · simp

theorem dropWhile_eq_self_of_length (p : Char → Bool) (l : List Char)
    (h : (l.dropWhile p).length = l.length) : l.dropWhile p = l := by
  cases l with
  | nil => rfl
  | cons a as =>
    rw [List.dropWhile_cons] at h ⊢
    split at h
    · exact absurd h (by have := length_dropWhile_le' p as; simp; omega)
    · simp_all

theorem dropWhile_head_false (p : Char → Bool) (l : List Char)
    (h : l.dropWhile p = l) : ∀ c, l.head? = some c → p c = false := by
  intro c hc
  cases l with
  | nil => simp at hc
  | cons a as =>
    obtain rfl : a = c := by simpa using hc
    rw [List.dropWhile_cons] at h
    by_cases hp : p a
    · rw [if_pos hp] at h
      have h1 := length_dropWhile_le' p as
      have h2 := congrArg List.length h
      simp at h2
      omega
    · simpa using hp

theorem trimL_length_le (l : List Char) : (trimL l).length ≤ l.length := by
  unfold trimL
  calc ((l.dropWhile isWS).reverse.dropWhile isWS).reverse.length
      = ((l.dropWhile isWS).reverse.dropWhile isWS).length := by simp
    _ ≤ (l.dropWhile isWS).reverse.length := length_dropWhile_le' _ _
    _ = (l.dropWhile isWS).length := by simp
    _ ≤ l.length := length_dropWhile_le' _ _

theorem trimInv_dropWhile (l : List Char) (h : trimL l = l) :
    l.dropWhile isWS = l := by
  apply dropWhile_eq_self_of_length
  have h1 := length_dropWhile_le' isWS l
  have h2 : (trimL l).length ≤ (l.dropWhile isWS).length := by
    unfold trimL
    calc ((l.dropWhile isWS).reverse.dropWhile isWS).reverse.length
        = ((l.dropWhile isWS).reverse.dropWhile isWS).length := by simp
      _ ≤ (l.dropWhile isWS).reverse.length := length_dropWhile_le' _ _
      _ = (l.dropWhile isWS).length := by simp
  rw [h] at h2
  omega

theorem trimInv_head (l : List Char) (h : trimL l = l) :
    ∀ c, l.head? = some c → isWS c = false :=
  dropWhile_head_false isWS l (trimInv_dropWhile l h)

theorem trimInv_reverse_dropWhile (l : List Char) (h : trimL l = l) :
    l.reverse.dropWhile isWS = l.reverse := by
  have hd := trimInv_dropWhile l h
  unfold trimL at h
  rw [hd] at h
  have := congrArg List.reverse h
  simpa using this

theorem trimInv_last (l : List Char) (h : trimL l = l) :
    ∀ c, l.getLast? = some c → isWS c = false := by
  intro c hc
  refine dropWhile_head_false isWS l.reverse (trimInv_reverse_dropWhile l h) c ?_
  rwa [List.head?_reverse]

theorem trimL_eq_self_of (l : List Char)
    (h1 : ∀ c, l.head? = some c → isWS c = false)
    (h2 : ∀ c, l.getLast? = some c → isWS c = false) :
    trimL l = l := by
  have hd : l.dropWhile isWS = l := by
    cases l with
    | nil => rfl
    | cons a as => rw [List.dropWhile_cons, h1 a rfl]; simp
  have hd2 : l.reverse.dropWhile isWS = l.reverse := by
    cases hr : l.reverse with
    | nil => rfl
    | cons a as =>
      have : l.getLast? = some a := by
        rw [← List.head?_reverse, hr]; rfl
      rw [List.dropWhile_cons, h2 a this]
      simp
  unfold trimL
  rw [hd, hd2, List.reverse_reverse]

theorem trimL_eq_self_of_all (l : List Char)
    (h : ∀ c ∈ l, isWS c = false) : trimL l = l := by
  refine trimL_eq_self_of l (fun c hc => ?_) (fun c hc => ?_)
  · exact h c (List.mem_of_mem_head? hc)
  · exact h c (List.mem_of_mem_getLast? hc)

/-! ## Well-formedness: the identifier and value alphabets -/

theorem goodChar_ne (c b : Char) (h : goodChar c = true)
    (hb : goodChar b = false) : (c == b) = false := by
  rcases hcb : c == b
  · rfl
  · obtain rfl : c = b := by simpa using hcb
    rw [h] at hb
    cases hb

theorem goodChar_not_ws (c : Char) (h : goodChar c = true) : isWS c = false := by
  unfold isWS
  rw [goodChar_ne c ' ' h (by decide), goodChar_ne c '\t' h (by decide),
    goodChar_ne c '\n' h (by decide), goodChar_ne c '\r' h (by decide)]
  rfl

theorem goodChar_ne_mem (c : Char) (h : goodChar c = true) (b : Char)
    (hb : goodChar b = false) : c ≠ b := by
  intro e
  subst e
  rw [h] at hb
  cases hb

theorem goodName_chars (s : String) (h : goodName s = true) :
    s.data ≠ [] ∧ ∀ c ∈ s.data, goodChar c = true := by
  unfold goodName at h
  rw [Bool.and_eq_true] at h
  refine ⟨by simpa using h.1, ?_⟩
  intro c hc
  exact List.all_eq_true.mp h.2 c hc

/-! ## joinSep lemmas -/

theorem mem_joinSep (d : Char) (parts : List (List Char)) (c : Char)
    (hc : c ∈ joinSep d parts) : c = d ∨ ∃ p ∈ parts, c ∈ p := by
  induction parts with
  | nil => simp [joinSep] at hc
  | cons x xs ih =>
    cases xs with
    | nil => exact Or.inr ⟨x, by simp, by simpa [joinSep] using hc⟩
    | cons y ys =>
      rw [joinSep] at hc
      rcases List.mem_append.mp hc with h1 | h2
      · exact Or.inr ⟨x, by simp, h1⟩
      · rcases List.mem_cons.mp h2 with rfl | h3
        · exact Or.inl rfl
        · rcases ih h3 with h4 | ⟨p, hp, hcp⟩
          · exact Or.inl h4
          · exact Or.inr ⟨p, by simp [hp], hcp⟩

theorem head?_joinSep (d : Char) (parts : List (List Char))
    (hne : ∀ p ∈ parts, p ≠ []) (hp : parts ≠ []) :
    ∃ p ∈ parts, (joinSep d parts).head? = p.head? := by
  cases parts with
  | nil => exact absurd rfl hp
  | cons x xs =>
    cases xs with
    | nil => exact ⟨x, by simp, rfl⟩
    | cons y ys =>
      refine ⟨x, by simp, ?_⟩
      rw [joinSep, List.head?_append]
      cases hx : x with
      | nil => exact absurd hx (hne x (by simp))
      | cons a as => simp

theorem getLast?_joinSep (d : Char) (parts : List (List Char))
    (hne : ∀ p ∈ parts, p ≠ []) (hp : parts ≠ []) :
    ∃ p ∈ parts, (joinSep d parts).getLast? = p.getLast? := by
  induction parts with
  | nil => exact absurd rfl hp
  | cons x xs ih =>
    cases xs with
    | nil => exact ⟨x, by simp, rfl⟩
    | cons y ys =>
      obtain ⟨p, hmem, hlast⟩ := ih (fun q hq => hne q (by simp [hq])) (by simp)
      refine ⟨p, by simp [hmem], ?_⟩
      have hpne : p ≠ [] := hne p (by simp [hmem])
      obtain ⟨c, hc⟩ : ∃ c, p.getLast? = some c :=
        Option.isSome_iff_exists.mp (List.getLast?_isSome.mpr hpne)
      have hjne : joinSep d (y :: ys) ≠ [] := by
        intro he
        rw [he] at hlast
        rw [← hlast] at hc
        cases hc
      obtain ⟨z, zs, hz⟩ : ∃ z zs, joinSep d (y :: ys) = z :: zs := by
        cases hj : joinSep d (y :: ys) with
        | nil => exact absurd hj hjne
        | cons z zs => exact ⟨z, zs, rfl⟩
      rw [joinSep, List.getLast?_append, hz, List.getLast?_cons_cons, ← hz, hlast, hc]
      rfl

theorem head?_joinSep_cases (d : Char) (parts : List (List Char)) (c : Char)
    (hc : (joinSep d parts).head? = some c) :
    c = d ∨ ∃ p ∈ parts, p.head? = some c := by
  induction parts with
  | nil => simp [joinSep] at hc
  | cons x xs ih =>
    cases xs with
    | nil => exact Or.inr ⟨x, by simp, hc⟩
    | cons y ys =>
      rw [joinSep, List.head?_append] at hc
      cases hx : x with
      | nil =>
        rw [hx] at hc
        simp at hc
        exact Or.inl hc.symm
      | cons a as =>
        rw [hx] at hc
        simp at hc
        exact Or.inr ⟨x, by simp [hx], by rw [hx]; simpa using hc⟩

theorem getLast?_joinSep_cases (d : Char) (parts : List (List Char)) (c : Char)
    (hc : (joinSep d parts).getLast? = some c) :
    c = d ∨ ∃ p ∈ parts, p.getLast? = some c := by
  induction parts with
  | nil => simp [joinSep] at hc
  | cons x xs ih =>
    cases xs with
    | nil => exact Or.inr ⟨x, by simp, hc⟩
    | cons y ys =>
      rw [joinSep, List.getLast?_append] at hc
      cases hj : joinSep d (y :: ys) with
      | nil =>
        rw [hj] at hc
        simp at hc
        exact Or.inl hc.symm
      | cons z zs =>
        rw [hj, List.getLast?_cons_cons, ← hj] at hc
        have hjs : (joinSep d (y :: ys)).getLast? = some c := by
          obtain ⟨w, hw⟩ : ∃ w, (joinSep d (y :: ys)).getLast? = some w :=
            Option.isSome_iff_exists.mp (List.getLast?_isSome.mpr (by rw [hj]; simp))
          rw [hw] at hc ⊢
          simpa using hc
        rcases ih hjs with h1 | ⟨p, hp, hcp⟩
        · exact Or.inl h1
        · exact Or.inr ⟨p, by simp [hp], hcp⟩

/-- A joined line of trim-invariant parts is itself trim-invariant,
provided the separator is not whitespace. -/
theorem trimL_joinSep (d : Char) (hd : isWS d = false) (parts : List (List Char))
    (hinv : ∀ p ∈ parts, trimL p = p) :
    trimL (joinSep d parts) = joinSep d parts := by
  refine trimL_eq_self_of _ (fun c hc => ?_) (fun c hc => ?_)
  · rcases head?_joinSep_cases d parts c hc with rfl | ⟨p, hp, hcp⟩
    · exact hd
    · exact trimInv_head p (hinv p hp) c hcp
  · rcases getLast?_joinSep_cases d parts c hc with rfl | ⟨p, hp, hcp⟩
    · exact hd
    · exact trimInv_last p (hinv p hp) c hcp

/-! ## Characters of serialized constraint tokens -/

theorem pred_ne (P : Char → Bool) (c b : Char)
    (hc : P c = true) (hb : P b = false) : c ≠ b := by
  intro e
  subst e
  rw [hc] at hb
  cases hb

theorem consChar_cases (c : Char) (h : consChar c = true) :
    goodChar c = true ∨ c = ',' ∨ c = '(' ∨ c = ')' ∨ c = '-' ∨ c = '>' := by
  unfold consChar at h
  simp only [Bool.or_eq_true, beq_iff_eq] at h
  tauto

theorem consChar_not_ws (c : Char) (h : consChar c = true) : isWS c = false := by
  rcases consChar_cases c h with hg | rfl | rfl | rfl | rfl | rfl
  · exact goodChar_not_ws c hg
  all_goals decide

theorem consChar_ne_semi (c : Char) (h : consChar c = true) : c ≠ ';' := by
  rcases consChar_cases c h with hg | rfl | rfl | rfl | rfl | rfl
  · exact goodChar_ne_mem c hg ';' (by decide)
  all_goals decide

theorem consChar_ne_nl (c : Char) (h : consChar c = true) : c ≠ '\n' := by
  rcases consChar_cases c h with hg | rfl | rfl | rfl | rfl | rfl
  · exact goodChar_ne_mem c hg '\n' (by decide)
  all_goals decide

theorem goodChar_consChar (c : Char) (h : goodChar c = true) : consChar c = true := by
  unfold consChar
  rw [h]
  rfl

theorem joinSep_names_chars (names : List String)
    (hn : ∀ s ∈ names, goodName s = true) :
    ∀ c ∈ joinSep ',' (names.map String.data), consChar c = true := by
  intro c hc
  rcases mem_joinSep ',' _ c hc with rfl | ⟨p, hp, hcp⟩
  · decide
  · obtain ⟨s, hs, rfl⟩ := List.mem_map.mp hp
    exact goodChar_consChar c ((goodName_chars s (hn s hs)).2 c hcp)

/-- The characters of a serialized constraint token all lie in the
constraint-token alphabet. -/
theorem serializeConstraint_chars (con : Constraint) (hwf : WFConstraint con) :
    ∀ c ∈ serializeConstraint con, consChar c = true := by
  cases con with
  | pk cols =>
    intro c hc
    unfold serializeConstraint at hc
    rcases List.mem_append.mp hc with h1 | h2
    · rcases List.mem_append.mp h1 with h3 | h4
      · exact (by decide : ∀ x ∈ "PK(".data, consChar x = true) c h3
      · exact joinSep_names_chars cols hwf c h4
    · exact (by decide : ∀ x ∈ ")".data, consChar x = true) c h2
  | uq cols =>
    intro c hc
    unfold serializeConstraint at hc
    rcases List.mem_append.mp hc with h1 | h2
    · rcases List.mem_append.mp h1 with h3 | h4
      · exact (by decide : ∀ x ∈ "UQ(".data, consChar x = true) c h3
      · exact joinSep_names_chars cols hwf c h4
    · exact (by decide : ∀ x ∈ ")".data, consChar x = true) c h2
  | fk cols rt rcols =>
    obtain ⟨h1, h2, h3⟩ := hwf
    intro c hc
    unfold serializeConstraint at hc
    simp only [List.append_assoc, List.mem_append] at hc
    rcases hc with hm | hm | hm | hm | hm | hm | hm
    · exact (by decide : ∀ x ∈ "FK(".data, consChar x = true) c hm
    · exact joinSep_names_chars cols h1 c hm
    · exact (by decide : ∀ x ∈ ")->".data, consChar x = true) c hm
    · exact goodChar_consChar c ((goodName_chars rt h2).2 c hm)
    · exact (by decide : ∀ x ∈ "(".data, consChar x = true) c hm
    · exact joinSep_names_chars rcols h3 c hm
    · exact (by decide : ∀ x ∈ ")".data, consChar x = true) c hm

/-! ## Splitting a joined string recovers the parts -/

theorem splitGo_append_delim (d : Char) (v : List Char) (rest : List Char)
    (hv : d ∉ v) (acc : List Char) :
    splitGo d (v ++ d :: rest) acc = (acc.reverse ++ v) :: splitGo d rest [] := by
  induction v generalizing acc with
  | nil => simp [splitGo]
  | cons c cs ih =>
    have hfree : d ∉ cs := fun h => hv (by simp [h])
    have hcd : (c == d) = false := by
      have : d ≠ c := fun h => hv (by simp [h])
      simpa using fun h => this h.symm
    rw [List.cons_append, splitGo, if_neg (by simp [hcd]), ih hfree]
    simp

theorem splitGo_no_delim (d : Char) (v : List Char) (hv : d ∉ v) (acc : List Char) :
    splitGo d v acc
      = if (acc.reverse ++ v).isEmpty then [] else [acc.reverse ++ v] := by
  induction v generalizing acc with
  | nil => simp [splitGo]
  | cons c cs ih =>
    have hfree : d ∉ cs := fun h => hv (by simp [h])
    have hcd : (c == d) = false := by
      have : d ≠ c := fun h => hv (by simp [h])
      simpa using fun h => this h.symm
    rw [splitGo, if_neg (by simp [hcd]), ih hfree]
    simp

theorem splitRaw_joinSep (d : Char) (parts : List (List Char))
    (hfree : ∀ p ∈ parts, d ∉ p) :
    splitRaw d (joinSep d parts)
      = if parts.getLast? = some [] then parts.dropLast else parts := by
  induction parts with
  | nil => simp [splitRaw, joinSep, splitGo]
  | cons x xs ih =>
    cases xs with
    | nil =>
      unfold splitRaw joinSep
      rw [splitGo_no_delim d x (hfree x (by simp)) []]
      cases hx : x with
      | nil => simp
      | cons a as => simp
    | cons y ys =>
      unfold splitRaw joinSep
      rw [splitGo_append_delim d x (joinSep d (y :: ys)) (hfree x (by simp)) []]
      have ihr := ih (fun p hp => hfree p (by simp [hp]))
      unfold splitRaw at ihr
      rw [List.reverse_nil, List.nil_append, ihr]
      by_cases hlast : (y :: ys).getLast? = some []
      · rw [if_pos hlast, if_pos (by simpa using hlast)]
        rfl
      · rw [if_neg hlast, if_neg (by simpa using hlast)]

theorem map_trimL_invariant (l : List (List Char))
    (h : ∀ p ∈ l, trimL p = p) : l.map trimL = l := by
  induction l with
  | nil => rfl
  | cons x xs ih =>
    rw [List.map_cons, h x (by simp), ih fun p hp => h p (by simp [hp])]

theorem splitTrim_joinSep (d : Char) (parts : List (List Char))
    (hfree : ∀ p ∈ parts, d ∉ p) (hinv : ∀ p ∈ parts, trimL p = p) :
    splitTrim d (joinSep d parts)
      = if parts.getLast? = some [] then parts.dropLast else parts := by
  unfold splitTrim
  rw [splitRaw_joinSep d parts hfree]
  by_cases hlast : parts.getLast? = some []
  · rw [if_pos hlast]
    exact map_trimL_invariant _ fun p hp =>
      hinv p (List.dropLast_subset _ hp)
  · rw [if_neg hlast]
    exact map_trimL_invariant _ hinv

/-- For non-empty parts (identifiers), splitting the join recovers the
parts exactly. -/
theorem splitTrim_joinSep_names (d : Char) (parts : List (List Char))
    (hfree : ∀ p ∈ parts, d ∉ p) (hinv : ∀ p ∈ parts, trimL p = p)
    (hne : ∀ p ∈ parts, p ≠ []) :
    splitTrim d (joinSep d parts) = parts := by
  rw [splitTrim_joinSep d parts hfree hinv]
  have hno : parts.getLast? ≠ some [] := fun hlast =>
    hne [] (List.mem_of_mem_getLast? hlast) rfl
  rw [if_neg hno]

/-! ## Decimal print / parse round trip -/

/-- Two characters with opposite values under any character predicate
are distinct. -/
theorem pred_beq_false (P : Char → Bool) (c b : Char)
    (hc : P c = true) (hb : P b = false) : (c == b) = false := by
  rcases hcb : c == b
  · rfl
  · obtain rfl : c = b := by simpa using hcb
    rw [hc] at hb
    cases hb

theorem natReprGo_fuel (n : Nat) : ∀ f₁ f₂, n < f₁ → n < f₂ →
    natReprGo f₁ n = natReprGo f₂ n := by
  induction n using Nat.strong_induction_on with
  | _ n ih =>
    intro f₁ f₂ h₁ h₂
    cases f₁ with
    | zero => omega
    | succ g₁ =>
      cases f₂ with
      | zero => omega
      | succ g₂ =>
        by_cases hn : n < 10
        · simp [natReprGo, hn]
        · have hd : n / 10 < n := Nat.div_lt_self (by omega) (by omega)
          simp only [natReprGo, hn, if_false]
          rw [ih (n / 10) hd g₁ g₂ (by omega) (by omega)]

theorem natRepr_eq (n : Nat) :
    natRepr n = if n < 10 then [digitChar n]
      else natRepr (n / 10) ++ [digitChar (n % 10)] := by
  by_cases hn : n < 10
  · simp [natRepr, natReprGo, hn]
  · have hd : n / 10 < n := Nat.div_lt_self (by omega) (by omega)
    rw [if_neg hn]
    unfold natRepr
    simp only [natReprGo, hn, if_false]
    rw [natReprGo_fuel (n / 10) n (n / 10 + 1) (by omega) (by omega)]
    rfl

theorem digitChar_digit (v : Nat) (h : v < 10) :
    isDigitC (digitChar v) = true ∧ (digitChar v).toNat = 48 + v := by
  interval_cases v <;> exact ⟨by decide, by decide⟩

theorem natRepr_ne_nil (n : Nat) : natRepr n ≠ [] := by
  rw [natRepr_eq]
  split <;> simp

theorem natRepr_all_digits (n : Nat) : ∀ c ∈ natRepr n, isDigitC c = true := by
  induction n using Nat.strong_induction_on with
  | _ n ih =>
    intro c hc
    rw [natRepr_eq] at hc
    by_cases hn : n < 10
    · rw [if_pos hn] at hc
      simp only [List.mem_singleton] at hc
      subst hc
      exact (digitChar_digit n hn).1
    · rw [if_neg hn] at hc
      have hd : n / 10 < n := Nat.div_lt_self (by omega) (by omega)
      rcases List.mem_append.mp hc with h1 | h2
      · exact ih (n / 10) hd c h1
      · simp only [List.mem_singleton] at h2
        subst h2
        exact (digitChar_digit (n % 10) (Nat.mod_lt _ (by omega))).1

theorem foldl_digits_natRepr (n : Nat) :
    (natRepr n).foldl (fun a c => a * 10 + (c.toNat - 48)) 0 = n := by
  induction n using Nat.strong_induction_on with
  | _ n ih =>
    rw [natRepr_eq]
    by_cases hn : n < 10
    · rw [if_pos hn]
      simp [(digitChar_digit n hn).2]
    · have hd : n / 10 < n := Nat.div_lt_self (by omega) (by omega)
      rw [if_neg hn, List.foldl_append, ih (n / 10) hd]
      simp only [List.foldl_cons, List.foldl_nil,
        (digitChar_digit (n % 10) (Nat.mod_lt _ (by omega))).2]
      omega

theorem digitsVal_natRepr (n : Nat) : digitsVal (natRepr n) = some n := by
  unfold digitsVal
  rw [List.takeWhile_eq_self_iff.mpr (natRepr_all_digits n)]
  rw [if_neg (by simpa using natRepr_ne_nil n)]
  rw [foldl_digits_natRepr n]

theorem dropWhile_all_false (p : Char → Bool) (l : List Char)
    (h : ∀ c ∈ l, p c = false) : l.dropWhile p = l := by
  cases l with
  | nil => rfl
  | cons a as => rw [List.dropWhile_cons, h a (by simp)]; simp

theorem digit_not_space (c : Char) (h : isDigitC c = true) : isSpaceC c = false := by
  unfold isSpaceC
  rw [pred_beq_false isDigitC c ' ' h (by decide),
    pred_beq_false isDigitC c '\t' h (by decide),
    pred_beq_false isDigitC c '\n' h (by decide),
    pred_beq_false isDigitC c (Char.ofNat 11) h (by decide),
    pred_beq_false isDigitC c (Char.ofNat 12) h (by decide),
    pred_beq_false isDigitC c '\r' h (by decide)]
  rfl

theorem digit_not_ws (c : Char) (h : isDigitC c = true) : isWS c = false := by
  unfold isWS
  rw [pred_beq_false isDigitC c ' ' h (by decide),
    pred_beq_false isDigitC c '\t' h (by decide),
    pred_beq_false isDigitC c '\n' h (by decide),
    pred_beq_false isDigitC c '\r' h (by decide)]
  rfl

theorem cppStoi_natRepr (n : Nat) : cppStoi (natRepr n) = some (n : Int) := by
  unfold cppStoi
  rw [dropWhile_all_false isSpaceC (natRepr n)
    (fun c hc => digit_not_space c (natRepr_all_digits n c hc))]
  cases hr : natRepr n with
  | nil => exact absurd hr (natRepr_ne_nil n)
  | cons c rest =>
    have hcd : isDigitC c = true :=
      natRepr_all_digits n c (by rw [hr]; simp)
    show (if (c == '-') = true then (digitsVal rest).map fun v => -(v : Int)
      else if (c == '+') = true then (digitsVal rest).map fun v => (v : Int)
      else (digitsVal (c :: rest)).map fun v => (v : Int)) = some (n : Int)
    rw [pred_beq_false isDigitC c '-' hcd (by decide),
      pred_beq_false isDigitC c '+' hcd (by decide)]
    simp only [Bool.false_eq_true, if_false]
    rw [← hr, digitsVal_natRepr n]
    rfl

theorem trimL_natRepr (n : Nat) : trimL (natRepr n) = natRepr n :=
  trimL_eq_self_of_all _ fun c hc => digit_not_ws c (natRepr_all_digits n c hc)

/-! ## Prefix, search and slicing helpers -/

theorem startsWithL_self_append (pat rest : List Char) :
    startsWithL pat (pat ++ rest) = true := by
  induction pat with
  | nil => rfl
  | cons p ps ih => simp [startsWithL, ih]

theorem startsWithL_false_of_ne (p c : Char) (ps cs : List Char) (h : p ≠ c) :
    startsWithL (p :: ps) (c :: cs) = false := by
  simp [startsWithL, h]

theorem drop_len_append {α : Type} (pre rest : List α) :
    (pre ++ rest).drop pre.length = rest :=
  List.drop_left pre rest

theorem take_len_append {α : Type} (pre rest : List α) :
    (pre ++ rest).take pre.length = pre :=
  List.take_left pre rest

theorem findSubIdx_first (pat pre suf : List Char) (p0 : Char) (pat' : List Char)
    (hpat : pat = p0 :: pat') (hpre : p0 ∉ pre)
    (hstart : startsWithL pat (pat ++ suf) = true) :
    findSubIdx pat (pre ++ pat ++ suf) = some pre.length := by
  induction pre with
  | nil =>
    subst hpat
    rw [List.nil_append]
    rw [List.cons_append] at hstart ⊢
    unfold findSubIdx
    rw [hstart]
    rfl
  | cons c pre' ih =>
    have hne : p0 ≠ c := fun e => hpre (by simp [e])
    have hassoc : (c :: pre') ++ pat ++ suf = c :: (pre' ++ pat ++ suf) := by simp
    rw [hassoc]
    simp only [findSubIdx]
    rw [hpat, startsWithL_false_of_ne p0 c _ _ hne]
    simp only [Bool.false_eq_true, if_false]
    rw [← hpat, ih fun hm => hpre (by simp [hm])]
    rfl

theorem trimL_goodName (s : String) (h : goodName s = true) :
    trimL s.data = s.data :=
  trimL_eq_self_of_all _ fun c hc =>
    goodChar_not_ws c ((goodName_chars s h).2 c hc)

theorem map_asString_data : ∀ names : List String,
    (names.map String.data).map List.asString = names
  | [] => rfl
  | s :: ss => by
    rw [List.map_cons, List.map_cons, map_asString_data ss]
    exact rfl

/-- Splitting a comma-joined list of good names and re-stringing them
recovers the names. -/
theorem splitTrim_names (names : List String)
    (hn : ∀ s ∈ names, goodName s = true) :
    (splitTrim ',' (joinSep ',' (names.map String.data))).map List.asString
      = names := by
  rw [splitTrim_joinSep_names ',' (names.map String.data)]
  · exact map_asString_data names
  · intro p hp
    obtain ⟨s, hs, rfl⟩ := List.mem_map.mp hp
    intro hmem
    exact goodChar_ne_mem ',' ((goodName_chars s (hn s hs)).2 ',' hmem) ','
      (by decide) rfl
  · intro p hp
    obtain ⟨s, hs, rfl⟩ := List.mem_map.mp hp
    exact trimL_goodName s (hn s hs)
  · intro p hp
    obtain ⟨s, hs, rfl⟩ := List.mem_map.mp hp
    exact (goodName_chars s (hn s hs)).1

/-! ## Parsing a serialized constraint token -/

theorem parse_serializeConstraint (con : Constraint) (hwf : WFConstraint con) :
    parseConstraintToken (serializeConstraint con) = some con := by
  cases con with
  | pk cols =>
    simp only [serializeConstraint]
    unfold parseConstraintToken
    rw [List.append_assoc]
    rw [startsWithL_self_append "PK(".data _]
    rw [if_pos rfl]
    have hdrop : (("PK(".data ++ (joinSep ',' (cols.map String.data) ++ ")".data)).drop 3)
        = joinSep ',' (cols.map String.data) ++ [')'] := by
      have h3 : ("PK(".data : List Char).length = 3 := rfl
      rw [← h3, drop_len_append]
    rw [hdrop, List.dropLast_concat, splitTrim_names cols hwf]
  | uq cols =>
    simp only [serializeConstraint]
    unfold parseConstraintToken
    rw [List.append_assoc]
    have hPK : startsWithL "PK(".data
        ("UQ(".data ++ (joinSep ',' (cols.map String.data) ++ ")".data)) = false := by
      show startsWithL ('P' :: "K(".data)
        ('U' :: ("Q(".data ++ (joinSep ',' (cols.map String.data) ++ ")".data))) = false
      exact startsWithL_false_of_ne 'P' 'U' _ _ (by decide)
    rw [hPK]
    simp only [Bool.false_eq_true, if_false]
    rw [startsWithL_self_append "UQ(".data _, if_pos rfl]
    have hdrop : (("UQ(".data ++ (joinSep ',' (cols.map String.data) ++ ")".data)).drop 3)
        = joinSep ',' (cols.map String.data) ++ [')'] := by
      have h3 : ("UQ(".data : List Char).length = 3 := rfl
      rw [← h3, drop_len_append]
    rw [hdrop, List.dropLast_concat, splitTrim_names cols hwf]
  | fk cols rt rcols =>
    obtain ⟨hc, hrt, hrc⟩ := hwf
    set jl := joinSep ',' (cols.map String.data) with hjl
    set jr := joinSep ',' (rcols.map String.data) with hjr
    have htok : serializeConstraint (.fk cols rt rcols)
        = ("FK(".data ++ jl) ++ ")->".data ++ (rt.data ++ "(".data ++ (jr ++ [')'])) := by
      simp only [serializeConstraint]
      simp [List.append_assoc]
    have hjl_chars : ∀ c ∈ jl, consChar c = true := joinSep_names_chars cols hc
    have hjr_chars : ∀ c ∈ jr, consChar c = true := joinSep_names_chars rcols hrc
    have hfind : findSubIdx ")->".data (serializeConstraint (.fk cols rt rcols))
        = some ("FK(".data ++ jl).length := by
      rw [htok]
      refine findSubIdx_first ")->".data _ _ ')' "->".data rfl ?_
        (startsWithL_self_append _ _)
      intro hmem
      rcases List.mem_append.mp hmem with h1 | h2
      · exact absurd h1 (by decide)
      · rw [hjl] at h2
        rcases mem_joinSep ',' _ ')' h2 with he | ⟨p, hp, hcp⟩
        · exact absurd he (by decide)
        · obtain ⟨s, hs, rfl⟩ := List.mem_map.mp hp
          exact absurd ((goodName_chars s (hc s hs)).2 ')' hcp) (by decide)
    have hlen : ("FK(".data ++ jl).length = 3 + jl.length := by
      simp [List.length_append]
      omega
    unfold parseConstraintToken
    have hPK : startsWithL "PK(".data (serializeConstraint (.fk cols rt rcols)) = false := by
      rw [htok]
      show startsWithL ('P' :: "K(".data)
        ('F' :: (("K(".data ++ jl) ++ ")->".data ++ (rt.data ++ "(".data ++ (jr ++ [')'])))) = false
      exact startsWithL_false_of_ne 'P' 'F' _ _ (by decide)
    have hUQ : startsWithL "UQ(".data (serializeConstraint (.fk cols rt rcols)) = false := by
      rw [htok]
      show startsWithL ('U' :: "Q(".data)
        ('F' :: (("K(".data ++ jl) ++ ")->".data ++ (rt.data ++ "(".data ++ (jr ++ [')'])))) = false
      exact startsWithL_false_of_ne 'U' 'F' _ _ (by decide)
    have hFK : startsWithL "FK(".data (serializeConstraint (.fk cols rt rcols)) = true := by
      rw [htok, List.append_assoc, List.append_assoc]
      exact startsWithL_self_append "FK(".data _
    rw [hPK, hUQ]
    simp only [Bool.false_eq_true, if_false]
    rw [hFK, if_pos rfl]
    split
    · rename_i heq
      rw [hfind] at heq
      cases heq
    · rename_i posArrow heq
      rw [hfind] at heq
      obtain rfl : ("FK(".data ++ jl).length = posArrow := by
        simpa using heq
      have hdrop3 : (serializeConstraint (.fk cols rt rcols)).drop 3
          = jl ++ (")->".data ++ (rt.data ++ "(".data ++ (jr ++ [')']))) := by
        rw [htok]
        have h3 : ("FK(".data : List Char).length = 3 := rfl
        rw [List.append_assoc, List.append_assoc, ← h3, drop_len_append]
      have htake : (jl ++ (")->".data ++ (rt.data ++ "(".data ++ (jr ++ [')'])))).take
          (("FK(".data ++ jl).length - 3) = jl := by
        rw [hlen]
        have : 3 + jl.length - 3 = jl.length := by omega
        rw [this, take_len_append]
      have hrest : (serializeConstraint (.fk cols rt rcols)).drop
          (("FK(".data ++ jl).length + 3) = rt.data ++ "(".data ++ (jr ++ [')']) := by
        rw [htok]
        have : (("FK(".data ++ jl) ++ ")->".data).length = ("FK(".data ++ jl).length + 3 := by
          simp [List.length_append]
        rw [List.append_assoc ("FK(".data ++ jl), ← List.append_assoc ("FK(".data ++ jl) ")->".data,
          ← this, drop_len_append]
      rw [hdrop3, htake, hrest]
      have hfind2 : findSubIdx "(".data (rt.data ++ "(".data ++ (jr ++ [')']))
          = some rt.data.length := by
        refine findSubIdx_first "(".data rt.data _ '(' [] rfl ?_
          (startsWithL_self_append _ _)
        intro hmem
        exact absurd ((goodName_chars rt hrt).2 '(' hmem) (by decide)
      split
      · rename_i heq2
        rw [hfind2] at heq2
        cases heq2
      · rename_i posParen heq2
        rw [hfind2] at heq2
        obtain rfl : rt.data.length = posParen := by simpa using heq2
        have htakeRt : (rt.data ++ "(".data ++ (jr ++ [')'])).take rt.data.length
            = rt.data := by
          rw [List.append_assoc, take_len_append]
        have hdropRt : (rt.data ++ "(".data ++ (jr ++ [')'])).drop (rt.data.length + 1)
            = jr ++ [')'] := by
          have : (rt.data ++ "(".data).length = rt.data.length + 1 := by
            simp [List.length_append]
          rw [List.append_assoc rt.data, ← List.append_assoc rt.data "(".data, ← this,
            drop_len_append]
        rw [htakeRt, hdropRt, trimL_goodName rt hrt, List.dropLast_concat]
        rw [hjl, hjr, splitTrim_names cols hc, splitTrim_names rcols hrc]
        exact rfl

theorem serializeConstraint_ne_nil (con : Constraint) :
    serializeConstraint con ≠ [] := by
  cases con <;> simp [serializeConstraint]

theorem filterMap_parse_serialize (cons : List Constraint)
    (hwf : ∀ con ∈ cons, WFConstraint con) :
    (cons.map serializeConstraint).filterMap parseConstraintToken = cons := by
  induction cons with
  | nil => rfl
  | cons c cs ih =>
    rw [List.map_cons, List.filterMap_cons,
      parse_serializeConstraint c (hwf c (by simp)),
      ih fun con hcon => hwf con (by simp [hcon])]

theorem joinSep_eq_nil (d : Char) (parts : List (List Char))
    (h : joinSep d parts = []) : parts = [] ∨ parts = [[]] := by
  cases parts with
  | nil => exact Or.inl rfl
  | cons x xs =>
    cases xs with
    | nil => exact Or.inr (by simpa [joinSep] using h)
    | cons y ys => exact absurd h (by simp [joinSep])

/-- Parsing the `CONSTRAINTS:` payload (the conditional plus token
split plus token parse) recovers the constraint list. -/
theorem parse_constraints_join (cons : List Constraint)
    (hwf : ∀ con ∈ cons, WFConstraint con) :
    (if joinSep ';' (cons.map serializeConstraint) = [] then ([] : List Constraint)
     else (splitTrim ';' (joinSep ';' (cons.map serializeConstraint))).filterMap
       parseConstraintToken) = cons := by
  cases hcons : cons with
  | nil => simp [joinSep]
  | cons c cs =>
    subst hcons
    rw [if_neg ?hne]
    case hne =>
      intro h
      rcases joinSep_eq_nil ';' _ h with h1 | h2
      · exact absurd h1 (by simp)
      · have : serializeConstraint c = [] := by
          have := congrArg List.head? h2
          simpa using this
        exact serializeConstraint_ne_nil c this
    rw [splitTrim_joinSep_names ';' _ ?free ?inv ?ne2]
    · exact filterMap_parse_serialize _ hwf
    case free =>
      intro p hp
      obtain ⟨con, hcon, rfl⟩ := List.mem_map.mp hp
      intro hmem
      exact consChar_ne_semi ';'
        (serializeConstraint_chars con (hwf con hcon) ';' hmem) rfl
    case inv =>
      intro p hp
      obtain ⟨con, hcon, rfl⟩ := List.mem_map.mp hp
      exact trimL_eq_self_of_all _ fun ch hch =>
        consChar_not_ws ch (serializeConstraint_chars con (hwf con hcon) ch hch)
    case ne2 =>
      intro p hp
      obtain ⟨con, hcon, rfl⟩ := List.mem_map.mp hp
      exact serializeConstraint_ne_nil con

/-! ## Record lines: serialization and rebuilding -/

theorem goodValue_props (s : String) (h : goodValue s = true) :
    trimL s.data = s.data ∧ ('\n' ∉ s.data) ∧ ('|' ∉ s.data) := by
  unfold goodValue at h
  rw [Bool.and_eq_true] at h
  have hchars := List.all_eq_true.mp h.1
  refine ⟨by simpa using h.2, fun hmem => ?_, fun hmem => ?_⟩
  · have := hchars '\n' hmem
    simp at this
  · have := hchars '|' hmem
    simp at this

theorem lookup_mem (l : List (String × String)) (k : String) (v : String)
    (h : l.lookup k = some v) : (k, v) ∈ l := by
  induction l with
  | nil => simp [List.lookup] at h
  | cons p rest ih =>
    obtain ⟨k', v'⟩ := p
    by_cases hk : k = k'
    · subst hk
      have : v' = v := by simpa [List.lookup] using h
      simp [this]
    · have hk2 : (k == k') = false := beq_eq_false_iff_ne.mpr hk
      have h2 : rest.lookup k = some v := by simpa [List.lookup, hk2] using h
      simp [ih h2]

theorem lookup_map_self (cols : List String) (f : String → String) (c : String) :
    ((cols.map fun x => (x, f x)).lookup c)
      = if c ∈ cols then some (f c) else none := by
  induction cols with
  | nil => simp [List.lookup]
  | cons x xs ih =>
    by_cases hc : c = x
    · subst hc
      simp [List.lookup, ih]
    · have hk2 : (c == x) = false := beq_eq_false_iff_ne.mpr hc
      simp [List.lookup, hk2, ih, hc]

/-- The loader's per-record rebuild agrees with the original record on
every lookup. -/
theorem recordEquiv_reload (cols : List String) (r : Record)
    (hwf : WFRecord cols r) :
    recordEquiv r (reloadRecord cols r) := by
  intro c
  unfold reloadRecord Record.getValue
  show r.data.lookup c = ((cols.map fun x => (x, (r.getValue x).getD "")).lookup c)
  rw [lookup_map_self cols (fun x => (r.getValue x).getD "") c]
  by_cases hc : c ∈ cols
  · rw [if_pos hc]
    obtain ⟨v, hv⟩ := Option.isSome_iff_exists.mp (hwf.2 c hc)
    unfold Record.getValue at hv
    rw [hv]
    unfold Record.getValue
    rw [hv]
    rfl
  · rw [if_neg hc]
    cases hl : r.data.lookup c with
    | none => rfl
    | some v =>
      exact absurd ((hwf.1 (c, v) (lookup_mem r.data c v hl)).1) hc

theorem zipPad_eq_zip (cols : List String) (vals : List (List Char))
    (hlen : vals.length = cols.length) :
    zipPad cols vals = cols.zip (vals.map List.asString) := by
  induction cols generalizing vals with
  | nil => cases vals with
    | nil => rfl
    | cons v vs => simp at hlen
  | cons c cs ih =>
    cases vals with
    | nil => simp at hlen
    | cons v vs =>
      simp only [zipPad, List.map_cons, List.zip_cons_cons]
      rw [ih vs (by simpa using hlen)]

theorem zipPad_dropLast (cols : List String) (vals : List (List Char))
    (hlen : vals.length = cols.length) (hlast : vals.getLast? = some []) :
    zipPad cols vals.dropLast = zipPad cols vals := by
  induction cols generalizing vals with
  | nil =>
    cases vals with
    | nil => rfl
    | cons v vs => simp at hlen
  | cons c cs ih =>
    cases vals with
    | nil => simp at hlast
    | cons v vs =>
      cases vs with
      | nil =>
        obtain rfl : v = [] := by simpa using hlast
        rfl
      | cons w ws =>
        have hstep : (v :: w :: ws).dropLast = v :: (w :: ws).dropLast := rfl
        rw [hstep]
        simp only [zipPad]
        rw [ih (w :: ws) (by simpa using hlen) (by simpa using hlast)]

theorem setAssoc_append_of_lookup_none (done : List (String × String))
    (c v : String) (h : done.lookup c = none) :
    setAssoc done c v = done ++ [(c, v)] := by
  induction done with
  | nil => rfl
  | cons p rest ih =>
    obtain ⟨k, w⟩ := p
    by_cases hk : k = c
    · subst hk
      simp [List.lookup] at h
    · have hk2 : (c == k) = false := beq_eq_false_iff_ne.mpr (Ne.symm hk)
      have h2 : rest.lookup c = none := by simpa [List.lookup, hk2] using h
      simp [setAssoc, hk, ih h2]

theorem lookup_append_none (done : List (String × String)) (c k v : String)
    (h : done.lookup k = none) (hk : k ≠ c) :
    (done ++ [(c, v)]).lookup k = none := by
  induction done with
  | nil => simp [List.lookup, beq_eq_false_iff_ne.mpr hk]
  | cons p rest ih =>
    obtain ⟨k', w⟩ := p
    by_cases hkk : k = k'
    · subst hkk
      simp [List.lookup] at h
    · have hk2 : (k == k') = false := beq_eq_false_iff_ne.mpr hkk
      have h2 : rest.lookup k = none := by simpa [List.lookup, hk2] using h
      simp [List.lookup, hk2, ih h2]

theorem foldl_setValue_data (pairs : List (String × String)) :
    ∀ done : List (String × String),
    (pairs.map Prod.fst).Nodup →
    (∀ k ∈ pairs.map Prod.fst, done.lookup k = none) →
    ((pairs.foldl (fun r cv => r.setValue cv.1 cv.2) ⟨done⟩ : Record)).data
      = done ++ pairs := by
  induction pairs with
  | nil => intro done _ _; simp
  | cons p rest ih =>
    intro done hnd hdisj
    obtain ⟨c, v⟩ := p
    simp only [List.map_cons, List.nodup_cons] at hnd
    rw [List.foldl_cons]
    have hset : (Record.setValue ⟨done⟩ c v) = ⟨done ++ [(c, v)]⟩ := by
      unfold Record.setValue
      rw [setAssoc_append_of_lookup_none done c v (hdisj c (by simp))]
    rw [hset, ih (done ++ [(c, v)]) hnd.2 ?_]
    · simp
    · intro k hk
      exact lookup_append_none done c k v (hdisj k (by simp [hk]))
        (fun e => hnd.1 (e ▸ hk))

/-- Rebuilding a record from its own serialized line recovers exactly
the loader's canonical record. -/
theorem parse_record_line (cols : List Column) (r : Record)
    (hnd : (cols.map Column.name).Nodup)
    (hwf : WFRecord (cols.map Column.name) r) :
    buildRecordRow (cols.map Column.name)
        (splitTrim '|' (trimL (serializeRecordLine cols r)))
      = reloadRecord (cols.map Column.name) r := by
  set names := cols.map Column.name with hnames
  set vals := cols.map fun c => ((r.getValue c.name).getD "").data with hvals
  have hline : serializeRecordLine cols r = joinSep '|' vals := rfl
  have hval_good : ∀ v ∈ vals, trimL v = v ∧ ('\n' ∉ v) ∧ ('|' ∉ v) := by
    intro v hv
    rw [hvals] at hv
    obtain ⟨c, hcmem, rfl⟩ := List.mem_map.mp hv
    obtain ⟨w, hw⟩ := Option.isSome_iff_exists.mp
      (hwf.2 c.name (by rw [hnames]; exact List.mem_map_of_mem _ hcmem))
    rw [hw]
    have hgv : goodValue w = true :=
      (hwf.1 (c.name, w) (lookup_mem r.data c.name w hw)).2
    obtain ⟨h1, h2, h3⟩ := goodValue_props w hgv
    exact ⟨h1, h2, h3⟩
  have htrim : trimL (serializeRecordLine cols r) = joinSep '|' vals := by
    rw [hline]
    exact trimL_joinSep '|' (by decide) vals fun p hp => (hval_good p hp).1
  rw [htrim]
  have hsplit : splitTrim '|' (joinSep '|' vals)
      = if vals.getLast? = some [] then vals.dropLast else vals :=
    splitTrim_joinSep '|' vals (fun p hp => (hval_good p hp).2.2)
      (fun p hp => (hval_good p hp).1)
  rw [hsplit]
  have hlen : vals.length = names.length := by
    rw [hvals, hnames]; simp
  have hzip : zipPad names (if vals.getLast? = some [] then vals.dropLast else vals)
      = zipPad names vals := by
    by_cases hlast : vals.getLast? = some []
    · rw [if_pos hlast]
      exact zipPad_dropLast names vals hlen hlast
    · rw [if_neg hlast]
  unfold buildRecordRow
  rw [hzip, zipPad_eq_zip names vals hlen]
  have hpairs : names.zip (vals.map List.asString)
      = names.map fun c => (c, ((Record.getValue r c).getD "")) := by
    rw [hvals, hnames]
    rw [List.map_map, List.map_map]
    have : (List.asString ∘ fun c : Column => ((r.getValue c.name).getD "").data)
        = fun c : Column => ((r.getValue c.name).getD "") := by
      funext c
      exact rfl
    rw [this]
    exact (List.zip_map' Column.name fun c => ((r.getValue c.name).getD "")) _
  rw [hpairs]
  have hkeys : ((names.map fun c => (c, ((Record.getValue r c).getD ""))).map
      Prod.fst) = names := by
    rw [List.map_map]
    exact List.map_id'' (fun _ => rfl) names
  have := foldl_setValue_data
    (names.map fun c => (c, ((Record.getValue r c).getD ""))) []
    (by rw [hkeys]; exact hnames ▸ hnd) (by intro k _; rfl)
  unfold reloadRecord
  have hgoal : (List.foldl (fun r cv => r.setValue cv.1 cv.2) (⟨[]⟩ : Record)
      (names.map fun c => (c, ((Record.getValue r c).getD "")))).data
      = names.map fun c => (c, ((Record.getValue r c).getD "")) := by
    rw [this]
    rfl
  cases hres : (List.foldl (fun r cv => r.setValue cv.1 cv.2) (⟨[]⟩ : Record)
      (names.map fun c => (c, ((Record.getValue r c).getD "")))) with
  | mk d =>
    rw [hres] at hgoal
    simp only at hgoal
    rw [hgoal, hnames]

/-! ## Constraint checks transfer along record equivalence -/

theorem pkGather_congr (K : List String) (r r' : Record)
    (h : recordEquiv r r') : pkGather K r = pkGather K r' := by
  induction K with
  | nil => rfl
  | cons c cs ih => simp only [pkGather, h c, ih]

theorem uqGather_congr (K : List String) (r r' : Record)
    (h : recordEquiv r r') : uqGather K r = uqGather K r' := by
  induction K with
  | nil => rfl
  | cons c cs ih => simp only [uqGather, h c, ih]

theorem constraintHolds_map (recs : List Record) (f : Record → Record)
    (con : Constraint) (hequiv : ∀ r ∈ recs, recordEquiv r (f r))
    (h : constraintHolds recs con) : constraintHolds (recs.map f) con := by
  cases con with
  | pk K =>
    obtain ⟨hg, hpw⟩ := h
    constructor
    · intro r' hr'
      obtain ⟨r, hr, rfl⟩ := List.mem_map.mp hr'
      rw [← pkGather_congr K r (f r) (hequiv r hr)]
      exact hg r hr
    · rw [List.pairwise_map]
      refine hpw.imp_of_mem ?_
      intro a b ha hb hab
      rw [← uqGather_congr K a (f a) (hequiv a ha),
        ← uqGather_congr K b (f b) (hequiv b hb)]
      exact hab
  | uq K =>
    obtain ⟨hg, hpw⟩ := h
    constructor
    · intro r' hr'
      obtain ⟨r, hr, rfl⟩ := List.mem_map.mp hr'
      rw [← uqGather_congr K r (f r) (hequiv r hr)]
      exact hg r hr
    · rw [List.pairwise_map]
      refine hpw.imp_of_mem ?_
      intro a b ha hb hab
      rw [← uqGather_congr K a (f a) (hequiv a ha),
        ← uqGather_congr K b (f b) (hequiv b hb)]
      exact hab
  | fk cols rt rcols => trivial

/-! ## Every insert during a replay of well-formed records succeeds -/

theorem checkConstraint_of_holds (done : List Record) (r : Record)
    (todo : List Record) (con : Constraint)
    (h : constraintHolds (done ++ r :: todo) con) :
    checkConstraint done r con = true := by
  cases con with
  | pk K =>
    obtain ⟨hg, hpw⟩ := h
    obtain ⟨nv, hnv⟩ := Option.isSome_iff_exists.mp (hg r (by simp))
    simp only [checkConstraint]
    rw [hnv]
    simp only [Bool.not_eq_true']
    rcases hm : existingMatches K nv done
    · rfl
    · exfalso
      unfold existingMatches at hm
      obtain ⟨er, her, hmatch⟩ := List.any_eq_true.mp hm
      cases hu : uqGather K er with
      | none => rw [hu] at hmatch; cases hmatch
      | some evs =>
        rw [hu] at hmatch
        have hev : evs = nv := by simpa using hmatch
        have hne := (List.pairwise_append.mp hpw).2.2 er her r (by simp)
        rw [hu, pkGather_uqGather K r nv hnv] at hne
        exact hne (by rw [hev])
  | uq K =>
    obtain ⟨hg, hpw⟩ := h
    obtain ⟨nv, hnv⟩ := Option.isSome_iff_exists.mp (hg r (by simp))
    simp only [checkConstraint]
    rw [hnv]
    simp only [Bool.not_eq_true']
    rcases hm : existingMatches K nv done
    · rfl
    · exfalso
      unfold existingMatches at hm
      obtain ⟨er, her, hmatch⟩ := List.any_eq_true.mp hm
      cases hu : uqGather K er with
      | none => rw [hu] at hmatch; cases hmatch
      | some evs =>
        rw [hu] at hmatch
        have hev : evs = nv := by simpa using hmatch
        have hne := (List.pairwise_append.mp hpw).2.2 er her r (by simp)
        rw [hu, hnv] at hne
        exact hne (by rw [hev])
  | fk cols rt rcols => rfl

theorem foldl_insert_append (rs : List Record) : ∀ t0 : Table,
    (∀ con ∈ t0.schema.constraints, constraintHolds (t0.records ++ rs) con) →
    rs.foldl (fun tb r => (tb.insertRecord r).2) t0
      = { t0 with records := t0.records ++ rs } := by
  induction rs with
  | nil => intro t0 _; simp
  | cons r rest ih =>
    intro t0 hholds
    rw [List.foldl_cons]
    have hcheck : t0.schema.constraints.all (checkConstraint t0.records r) = true := by
      rw [List.all_eq_true]
      intro con hcon
      exact checkConstraint_of_holds t0.records r rest con (hholds con hcon)
    have hins : (t0.insertRecord r).2 = { t0 with records := t0.records ++ [r] } := by
      unfold Table.insertRecord
      rw [if_pos hcheck]
    rw [hins, ih { t0 with records := t0.records ++ [r] } ?_]
    · simp
    · intro con hcon
      have := hholds con hcon
      simpa [List.append_assoc] using this

/-! ## The four marker lines of a frame -/

theorem trimL_line_table (nm : String) (hnm : goodName nm = true) :
    trimL ("TABLE:".data ++ nm.data) = "TABLE:".data ++ nm.data :=
  trimL_eq_self_of_all _ fun c hc => by
    rcases List.mem_append.mp hc with h | h
    · exact (by decide : ∀ x ∈ "TABLE:".data, isWS x = false) c h
    · exact goodChar_not_ws c ((goodName_chars nm hnm).2 c h)

theorem trimL_line_columns (cols : List Column)
    (hcols : ∀ c ∈ cols, goodName c.name = true) :
    trimL ("COLUMNS:".data ++ joinSep ',' (cols.map (·.name.data)))
      = "COLUMNS:".data ++ joinSep ',' (cols.map (·.name.data)) := by
  refine trimL_eq_self_of_all _ fun c hc => ?_
  rcases List.mem_append.mp hc with h | h
  · exact (by decide : ∀ x ∈ "COLUMNS:".data, isWS x = false) c h
  · have : cols.map (·.name.data) = (cols.map Column.name).map String.data := by
      rw [List.map_map]
      rfl
    rw [this] at h
    exact consChar_not_ws c
      (joinSep_names_chars (cols.map Column.name)
        (fun s hs => by obtain ⟨cl, hcl, rfl⟩ := List.mem_map.mp hs; exact hcols cl hcl)
        c h)

theorem trimL_line_constraints (cons : List Constraint)
    (hwf : ∀ con ∈ cons, WFConstraint con) :
    trimL ("CONSTRAINTS:".data ++ joinSep ';' (cons.map serializeConstraint))
      = "CONSTRAINTS:".data ++ joinSep ';' (cons.map serializeConstraint) := by
  refine trimL_eq_self_of_all _ fun c hc => ?_
  rcases List.mem_append.mp hc with h | h
  · exact (by decide : ∀ x ∈ "CONSTRAINTS:".data, isWS x = false) c h
  · rcases mem_joinSep ';' _ c h with rfl | ⟨p, hp, hcp⟩
    · decide
    · obtain ⟨con, hcon, rfl⟩ := List.mem_map.mp hp
      exact consChar_not_ws c (serializeConstraint_chars con (hwf con hcon) c hcp)

theorem trimL_line_records (n : Nat) :
    trimL ("RECORDS:".data ++ natRepr n) = "RECORDS:".data ++ natRepr n :=
  trimL_eq_self_of_all _ fun c hc => by
    rcases List.mem_append.mp hc with h | h
    · exact (by decide : ∀ x ∈ "RECORDS:".data, isWS x = false) c h
    · exact digit_not_ws c (natRepr_all_digits n c h)

/-- No serialized frame line contains a newline. -/
theorem serializeTableLines_no_nl (nm : String) (t : Table)
    (hnm : goodName nm = true) (hwf : WFTable t) :
    ∀ line ∈ serializeTableLines nm t, '\n' ∉ line := by
  obtain ⟨_, hcols, hcons, hrecs, _, _⟩ := hwf
  intro line hline
  unfold serializeTableLines at hline
  simp only [List.mem_append, List.mem_cons, List.not_mem_nil, or_false] at hline
  rcases hline with ((rfl | rfl | rfl | rfl) | hm) | rfl
  · intro hmem
    rcases List.mem_append.mp hmem with h | h
    · exact absurd h (by decide)
    · exact absurd ((goodName_chars nm hnm).2 '\n' h) (by decide)
  · intro hmem
    rcases List.mem_append.mp hmem with h | h
    · exact absurd h (by decide)
    · have heq : t.schema.columns.map (·.name.data)
          = (t.schema.columns.map Column.name).map String.data := by
        rw [List.map_map]
        rfl
      rw [heq] at h
      exact absurd (joinSep_names_chars (t.schema.columns.map Column.name)
        (fun s hs => by obtain ⟨cl, hcl, rfl⟩ := List.mem_map.mp hs; exact hcols cl hcl)
        '\n' h) (by decide)
  · intro hmem
    rcases List.mem_append.mp hmem with h | h
    · exact absurd h (by decide)
    · rcases mem_joinSep ';' _ '\n' h with he | ⟨p, hp, hcp⟩
      · exact absurd he (by decide)
      · obtain ⟨con, hcon, rfl⟩ := List.mem_map.mp hp
        exact absurd (serializeConstraint_chars con (hcons con hcon) '\n' hcp)
          (by decide)
  · intro hmem
    rcases List.mem_append.mp hmem with h | h
    · exact absurd h (by decide)
    · exact absurd (natRepr_all_digits t.records.length '\n' h) (by decide)
  · obtain ⟨r, hr, rfl⟩ := List.mem_map.mp hm
    intro hmem
    unfold serializeRecordLine at hmem
    rcases mem_joinSep '|' _ '\n' hmem with he | ⟨p, hp, hcp⟩
    · exact absurd he (by decide)
    · obtain ⟨cl, hcl, rfl⟩ := List.mem_map.mp hp
      have hsome := (hrecs r hr).2 cl.name
        (List.mem_map_of_mem Column.name hcl)
      obtain ⟨w, hw⟩ := Option.isSome_iff_exists.mp hsome
      rw [hw] at hcp
      have hgv : goodValue w = true :=
        ((hrecs r hr).1 (cl.name, w) (lookup_mem r.data cl.name w hw)).2
      exact absurd hcp ((goodValue_props w hgv).2.1)
  · intro hmem
    exact absurd hmem (by decide)

/-! ## Replaying one serialized frame -/

theorem loadRecords_serialized (nm : String) (t : Table) (rest : List (List Char))
    (hwf : WFTable t) :
    loadRecords
      ⟨nm, ⟨(t.schema.columns.map Column.name).map fun c => ⟨c, DataType.STRING⟩,
        t.schema.constraints⟩, []⟩
      (t.schema.columns.map Column.name) t.records.length
      (t.records.map (serializeRecordLine t.schema.columns)
        ++ ("END_TABLE".data :: rest))
      = some (reloadTable nm t, "END_TABLE".data :: rest) := by
  obtain ⟨hnd, hcols, hcons, hrecs, hholds, _hbound⟩ := hwf
  set names := t.schema.columns.map Column.name with hnames
  set recLines := t.records.map (serializeRecordLine t.schema.columns) with hrecLines
  have hlenRec : recLines.length = t.records.length := by
    rw [hrecLines, List.length_map]
  unfold loadRecords
  rw [if_neg ?hlt]
  case hlt =>
    rw [List.length_append, hlenRec]
    simp
  have htake : (recLines ++ ("END_TABLE".data :: rest)).take t.records.length
      = recLines := by
    rw [← hlenRec, take_len_append]
  have hdrop : (recLines ++ ("END_TABLE".data :: rest)).drop t.records.length
      = "END_TABLE".data :: rest := by
    rw [← hlenRec, drop_len_append]
  rw [htake, hdrop, hrecLines]
  rw [List.foldl_map]
  have hfold_ext : t.records.foldl
      (fun (tb : Table) (r : Record) => (tb.insertRecord (buildRecordRow names
        (splitTrim '|' (trimL (serializeRecordLine t.schema.columns r))))).2)
      ⟨nm, ⟨names.map fun c => ⟨c, DataType.STRING⟩, t.schema.constraints⟩, []⟩
      = t.records.foldl
        (fun (tb : Table) (r : Record) => (tb.insertRecord (reloadRecord names r)).2)
        ⟨nm, ⟨names.map fun c => ⟨c, DataType.STRING⟩, t.schema.constraints⟩, []⟩ := by
    refine List.foldl_ext _ _ _ ?_
    intro tb r hr
    rw [parse_record_line t.schema.columns r hnd (hrecs r hr)]
  rw [hfold_ext]
  have hfold2 : List.foldl (fun (tb : Table) (r : Record) => (tb.insertRecord (reloadRecord names r)).2)
      (⟨nm, ⟨names.map fun c => ⟨c, DataType.STRING⟩, t.schema.constraints⟩, []⟩ : Table) t.records
      = List.foldl (fun (tb : Table) (r : Record) => (tb.insertRecord r).2)
        ⟨nm, ⟨names.map fun c => ⟨c, DataType.STRING⟩, t.schema.constraints⟩, []⟩
        (t.records.map (reloadRecord names)) := by
    rw [List.foldl_map]
  rw [hfold2, foldl_insert_append (t.records.map (reloadRecord names))
    ⟨nm, ⟨names.map fun c => ⟨c, DataType.STRING⟩, t.schema.constraints⟩, []⟩ ?_]
  · show some (_, _) = _
    refine congrArg some (Prod.ext ?_ rfl)
    show Table.mk nm _ _ = reloadTable nm t
    unfold reloadTable
    rw [List.map_map]
    exact rfl
  · intro con hcon
    simp only [List.nil_append]
    exact constraintHolds_map t.records (reloadRecord names) con
      (fun r hr => recordEquiv_reload names r (hrecs r hr))
      (hholds con hcon)

theorem parseFramesFuel_frame (fuel : Nat) (nm : String) (t : Table) (acc : DB)
    (rest : List (List Char)) (hnm : goodName nm = true) (hwf : WFTable t) :
    parseFramesFuel (fuel + 1) (serializeTableLines nm t ++ rest) acc
      = parseFramesFuel fuel rest (dbAddTable acc nm (reloadTable nm t)) := by
  have hshape : serializeTableLines nm t ++ rest
      = ("TABLE:".data ++ nm.data) ::
        ("COLUMNS:".data ++ joinSep ',' (t.schema.columns.map (·.name.data))) ::
        ("CONSTRAINTS:".data ++ joinSep ';' (t.schema.constraints.map serializeConstraint)) ::
        ("RECORDS:".data ++ natRepr t.records.length) ::
        (t.records.map (serializeRecordLine t.schema.columns)
          ++ ("END_TABLE".data :: rest)) := by
    simp [serializeTableLines]
  obtain ⟨hnd, hcols, hcons, hrecs, hholds, hbound⟩ := hwf
  have hjc : t.schema.columns.map (·.name.data)
      = (t.schema.columns.map Column.name).map String.data := by
    rw [List.map_map]
    rfl
  -- the TABLE line
  have htname : (trimL (("TABLE:".data ++ nm.data).drop 6)).asString = nm := by
    have h6 : ("TABLE:".data : List Char).length = 6 := rfl
    rw [← h6, drop_len_append, trimL_goodName nm hnm]
    exact rfl
  -- the COLUMNS line
  have hcolStart : startsWithL "COLUMNS:".data
      (trimL ("COLUMNS:".data ++ joinSep ',' (t.schema.columns.map (·.name.data)))) = true := by
    rw [trimL_line_columns _ hcols]
    exact startsWithL_self_append _ _
  have hgoodNames : ∀ s ∈ t.schema.columns.map Column.name, goodName s = true := by
    intro s hs
    obtain ⟨cl, hcl, rfl⟩ := List.mem_map.mp hs
    exact hcols cl hcl
  have hcolNames : (splitTrim ','
      (trimL ((trimL ("COLUMNS:".data ++ joinSep ','
        (t.schema.columns.map (·.name.data)))).drop 8))).map List.asString
      = t.schema.columns.map Column.name := by
    rw [trimL_line_columns _ hcols]
    have h8 : ("COLUMNS:".data : List Char).length = 8 := rfl
    rw [← h8, drop_len_append, hjc]
    have hjtrim : trimL (joinSep ',' ((t.schema.columns.map Column.name).map String.data))
        = joinSep ',' ((t.schema.columns.map Column.name).map String.data) :=
      trimL_eq_self_of_all _ fun c hc =>
        consChar_not_ws c (joinSep_names_chars _ hgoodNames c hc)
    rw [hjtrim]
    exact splitTrim_names _ hgoodNames
  -- the CONSTRAINTS line
  have hconStart : startsWithL "CONSTRAINTS:".data
      (trimL ("CONSTRAINTS:".data
        ++ joinSep ';' (t.schema.constraints.map serializeConstraint))) = true := by
    rw [trimL_line_constraints _ hcons]
    exact startsWithL_self_append _ _
  have hjk_trim : trimL ((trimL ("CONSTRAINTS:".data
      ++ joinSep ';' (t.schema.constraints.map serializeConstraint))).drop 12)
      = joinSep ';' (t.schema.constraints.map serializeConstraint) := by
    rw [trimL_line_constraints _ hcons]
    have h12 : ("CONSTRAINTS:".data : List Char).length = 12 := rfl
    rw [← h12, drop_len_append]
    refine trimL_eq_self_of_all _ fun c hc => ?_
    rcases mem_joinSep ';' _ c hc with rfl | ⟨p, hp, hcp⟩
    · decide
    · obtain ⟨con, hcon, rfl⟩ := List.mem_map.mp hp
      exact consChar_not_ws c (serializeConstraint_chars con (hcons con hcon) c hcp)
  have hconsVal : (if trimL ((trimL ("CONSTRAINTS:".data
      ++ joinSep ';' (t.schema.constraints.map serializeConstraint))).drop 12) = []
      then ([] : List Constraint)
      else (splitTrim ';' (trimL ((trimL ("CONSTRAINTS:".data
        ++ joinSep ';' (t.schema.constraints.map serializeConstraint))).drop 12))).filterMap
          parseConstraintToken)
      = t.schema.constraints := by
    rw [hjk_trim]
    exact parse_constraints_join _ hcons
  -- the RECORDS line
  have hrecStart : startsWithL "RECORDS:".data
      (trimL ("RECORDS:".data ++ natRepr t.records.length)) = true := by
    rw [trimL_line_records]
    exact startsWithL_self_append _ _
  have hstoi : cppStoi (trimL ((trimL ("RECORDS:".data
      ++ natRepr t.records.length)).drop 8))
      = some (t.records.length : Int) := by
    rw [trimL_line_records]
    have h8 : ("RECORDS:".data : List Char).length = 8 := rfl
    rw [← h8, drop_len_append, trimL_natRepr]
    exact cppStoi_natRepr _
  -- walk the frame
  rw [hshape]
  simp only [parseFramesFuel]
  rw [trimL_line_table nm hnm]
  rw [if_neg (by simp : ¬("TABLE:".data ++ nm.data = []))]
  rw [startsWithL_self_append "TABLE:".data nm.data, if_pos rfl]
  rw [hcolStart]
  simp only [Bool.not_true, Bool.false_eq_true, if_false]
  rw [hconStart]
  simp only [Bool.not_true, Bool.false_eq_true, if_false]
  rw [hrecStart]
  simp only [Bool.not_true, Bool.false_eq_true, if_false]
  rw [hstoi]
  simp only [Int.toNat_natCast]
  rw [htname, hcolNames, hconsVal]
  rw [loadRecords_serialized nm t rest
    ⟨hnd, hcols, hcons, hrecs, hholds, hbound⟩]
  simp only []
  rw [if_neg (by
    simp only [(by decide : trimL "END_TABLE".data = "END_TABLE".data)]
    exact fun h => h rfl : ¬(trimL "END_TABLE".data ≠ "END_TABLE".data))]

/-! ## Replaying the whole serialized catalog -/

theorem parseFramesFuel_serializeDB : ∀ (tables : DB) (fuel : Nat) (acc : DB),
    (∀ p ∈ tables, goodName p.1 = true ∧ WFTable p.2) →
    tables.length ≤ fuel →
    parseFramesFuel fuel (tables.flatMap fun p => serializeTableLines p.1 p.2) acc
      = .success (tables.foldl (fun a p => dbAddTable a p.1 (reloadTable p.1 p.2)) acc) := by
  intro tables
  induction tables with
  | nil =>
    intro fuel acc _ _
    cases fuel <;> rfl
  | cons p rest ih =>
    intro fuel acc hwf hlen
    cases fuel with
    | zero => simp at hlen
    | succ g =>
      rw [List.flatMap_cons]
      rw [parseFramesFuel_frame g p.1 p.2 acc _ (hwf p (by simp)).1 (hwf p (by simp)).2]
      rw [ih g _ (fun q hq => hwf q (by simp [hq])) (by simpa using hlen)]
      rw [List.foldl_cons]

theorem splitRaw_flatMap_nl (lines : List (List Char))
    (h : ∀ l ∈ lines, '\n' ∉ l) :
    splitRaw '\n' (lines.flatMap (· ++ ['\n'])) = lines := by
  induction lines with
  | nil => rfl
  | cons l ls ih =>
    rw [List.flatMap_cons]
    have hstep : (l ++ ['\n']) ++ ls.flatMap (· ++ ['\n'])
        = l ++ '\n' :: ls.flatMap (· ++ ['\n']) := by simp
    rw [hstep]
    unfold splitRaw
    rw [splitGo_append_delim '\n' l _ (h l (by simp)) []]
    rw [List.reverse_nil, List.nil_append]
    have := ih fun q hq => h q (by simp [hq])
    unfold splitRaw at this
    rw [this]

theorem map_toNat_ofNat (l : List Char) :
    (l.map Char.toNat).map Char.ofNat = l := by
  rw [List.map_map]
  exact List.map_id'' (fun c => Char.ofNat_toNat c) l

/-- Flushing and loading back with the same key reduces to the plain
parse of the serialized text. -/
theorem load_flush_plain (db : DB) (key : String) :
    loadFromBytes (flushToBytes db key) key
      = parseFrames (splitRaw '\n' (serializeDB db)) [] := by
  unfold loadFromBytes flushToBytes decryptData encryptData
  rw [xorKeyStream_involutive]
  unfold strBytes
  rw [show ((serializeDB db).asString).data = serializeDB db from rfl]
  rw [map_toNat_ofNat]

theorem length_le_flatMap_lines (tables : DB) :
    tables.length ≤ (tables.flatMap fun p => serializeTableLines p.1 p.2).length := by
  induction tables with
  | nil => simp
  | cons p rest ih =>
    rw [List.flatMap_cons, List.length_append]
    have h1 : 1 ≤ (serializeTableLines p.1 p.2).length := by
      unfold serializeTableLines
      simp
    simp only [List.length_cons]
    omega

theorem db_lookup_append_none (acc : DB) (k nm : String) (t : Table)
    (h : acc.lookup k = none) (hk : k ≠ nm) :
    (acc ++ [(nm, t)]).lookup k = none := by
  induction acc with
  | nil => simp [List.lookup, beq_eq_false_iff_ne.mpr hk]
  | cons p rest ih =>
    obtain ⟨k', w⟩ := p
    by_cases hkk : k = k'
    · subst hkk
      simp [List.lookup] at h
    · have hk2 : (k == k') = false := beq_eq_false_iff_ne.mpr hkk
      have h2 : rest.lookup k = none := by simpa [List.lookup, hk2] using h
      simp [List.lookup, hk2, ih h2]

theorem foldl_dbAddTable_append : ∀ (tables : DB) (acc : DB),
    (∀ p ∈ tables, acc.lookup p.1 = none) →
    (tables.map Prod.fst).Nodup →
    tables.foldl (fun a p => dbAddTable a p.1 (reloadTable p.1 p.2)) acc
      = acc ++ reloadDB tables := by
  intro tables
  induction tables with
  | nil => intro acc _ _; simp [reloadDB]
  | cons p rest ih =>
    intro acc hfresh hnd
    simp only [List.map_cons, List.nodup_cons] at hnd
    rw [List.foldl_cons]
    have hadd : dbAddTable acc p.1 (reloadTable p.1 p.2)
        = acc ++ [(p.1, reloadTable p.1 p.2)] := by
      unfold dbAddTable
      rw [hfresh p (by simp)]
      rfl
    rw [hadd, ih (acc ++ [(p.1, reloadTable p.1 p.2)]) ?_ hnd.2]
    · unfold reloadDB
      rw [List.map_cons, List.append_assoc]
      rfl
    · intro q hq
      refine db_lookup_append_none acc q.1 p.1 (reloadTable p.1 p.2)
        (hfresh q (by simp [hq])) ?_
      intro he
      exact hnd.1 (he ▸ List.mem_map_of_mem Prod.fst hq)

theorem dbEquiv_reload (db : DB) (hwf : WFDB db) : dbEquiv db (reloadDB db) := by
  constructor
  · unfold reloadDB
    rw [List.map_map]
    rfl
  · unfold reloadDB
    rw [List.forall₂_map_right_iff]
    rw [List.forall₂_same]
    intro p hp
    refine ⟨?_, rfl, ?_⟩
    · unfold reloadTable
      rw [List.map_map]
      rfl
    · unfold reloadTable
      simp only
      rw [List.forall₂_map_right_iff, List.forall₂_same]
      intro r hr
      exact recordEquiv_reload _ r (((hwf.2 p hp).2).2.2.2.1 r hr)

/-- Claim C4 (amended): for a well-formed catalog — distinct alphanumeric
table and column names, records binding exactly the schema columns to
values free of newlines, `|` separators and surrounding whitespace,
records satisfying the schema's PrimaryKey/Unique constraints, and
record counts below `INT_MAX` — flushing with any non-empty key and
loading the result back with the same key succeeds and rebuilds a
catalog with the same table names, the same column name lists in
order, the same constraint shapes, and the same record contents. -/
theorem c4_round_trip (db : DB) (key : String) (_hkey : key ≠ "")
    (hwf : WFDB db) :
    loadFromBytes (flushToBytes db key) key = .success (reloadDB db) ∧
    dbEquiv db (reloadDB db) := by
  refine ⟨?_, dbEquiv_reload db hwf⟩
  rw [load_flush_plain db key]
  unfold serializeDB parseFrames
  rw [splitRaw_flatMap_nl _ ?nl]
  case nl =>
    intro l hl
    obtain ⟨p, hp, hlp⟩ := List.mem_flatMap.mp hl
    exact serializeTableLines_no_nl p.1 p.2 (hwf.2 p hp).1 (hwf.2 p hp).2 l hlp
  rw [parseFramesFuel_serializeDB db _ [] hwf.2
    (le_trans (length_le_flatMap_lines db) (by omega))]
  rw [foldl_dbAddTable_append db [] (fun p _ => rfl) hwf.1]
  rw [List.nil_append]

/-- Witness for C4: a concrete one-table catalog with a primary key and
two records, flushed and reloaded with key `"zz"`. -/
theorem c4_round_trip_witness :
    ("zz" : String) ≠ "" ∧
    WFDB [("t", ⟨"t", ⟨[⟨"id", .STRING⟩], [.pk ["id"]]⟩,
      [⟨[("id", "1")]⟩, ⟨[("id", "2")]⟩]⟩)] ∧
    loadFromBytes (flushToBytes
      [("t", ⟨"t", ⟨[⟨"id", .STRING⟩], [.pk ["id"]]⟩,
        [⟨[("id", "1")]⟩, ⟨[("id", "2")]⟩]⟩)] "zz") "zz"
      = .success (reloadDB
        [("t", ⟨"t", ⟨[⟨"id", .STRING⟩], [.pk ["id"]]⟩,
          [⟨[("id", "1")]⟩, ⟨[("id", "2")]⟩]⟩)]) := by
  have hwf : WFDB [("t", ⟨"t", ⟨[⟨"id", .STRING⟩], [.pk ["id"]]⟩,
      [⟨[("id", "1")]⟩, ⟨[("id", "2")]⟩]⟩)] := by
    refine ⟨by decide, ?_⟩
    intro p hp
    simp only [List.mem_singleton] at hp
    subst hp
    refine ⟨by decide, by decide, by decide, ?_, ?_, ?_, by decide⟩
    · intro con hcon
      simp only [List.mem_singleton] at hcon
      subst hcon
      intro c hc
      simp only [List.mem_singleton] at hc
      subst hc
      decide
    · intro r hr
      simp only [List.mem_cons, List.not_mem_nil, or_false] at hr
      rcases hr with rfl | rfl <;> exact ⟨by decide, by decide⟩
    · intro con hcon
      simp only [List.mem_singleton] at hcon
      subst hcon
      exact ⟨by decide, by decide⟩
  exact ⟨by decide, hwf,
    (c4_round_trip _ "zz" (by decide) hwf).1⟩

/-- Counterexample for C4 as stated: a record value containing the
field separator `|` does not survive the round trip — the loader splits
it, so the rebuilt record's contents differ from the original's. -/
theorem c4_pipe_value_breaks_round_trip :
    loadFromBytes (flushToBytes pipeValDB "k") "k"
      = .success [("t", ⟨"t", ⟨[⟨"a", .STRING⟩], []⟩, [⟨[("a", "x")]⟩]⟩)] ∧
    ¬ dbEquiv pipeValDB [("t", ⟨"t", ⟨[⟨"a", .STRING⟩], []⟩, [⟨[("a", "x")]⟩]⟩)] := by
  refine ⟨by decide, ?_⟩
  intro h
  obtain ⟨_, hf⟩ := h
  cases hf with
  | cons htab _ =>
    obtain ⟨_, _, hrecs⟩ := htab
    cases hrecs with
    | cons hr _ =>
      exact absurd (hr "a") (by decide)

end DBSim
